import Mathlib

/-!
Shallow embedding of the worktree engine from `crates/worktree/src/worktree.rs`.

Conventions of the embedding:
* Relative filesystem paths (`Arc<Path>` in the source) are lists of normal
  components, ordered by the lexicographic list order (Rust compares paths
  component by component, and components bytewise; both match the
  `List String` linear order up to encoding).
* The persistent ordered indices (`SumTree<Entry>`, `SumTree<PathEntry>`,
  `SumTree<RepositoryEntry>`, `SumTree<StatusEntry>`) are modelled as lists of
  items kept strictly sorted by their key, with keyed lookup, keyed
  insert-or-replace, keyed removal and batched edits mirroring the
  `sum_tree` API used by the source.
* Machine integers (`u64`, `usize`, `i32` wire codes) are modelled as `Nat`
  resp. as finite enumerations; none of the modelled operations can overflow
  because they only copy or compare identifiers.
* Fallible operations return `Option` instead of `anyhow::Result`.
-/

namespace Worktree

/-- One path component, as its character list (Rust compares components
bytewise; `String`'s order does not reduce in the kernel, its character
list's does). -/
abbrev PathComp := List Char

/-- Shorthand for writing a concrete path component. -/
def pc (s : String) : PathComp := s.data

/-- A relative path, as the list of its normal components. -/
abbrev EntryPath := List PathComp

/-- Rust `Path::starts_with`: component-wise prefix test.  `underDir p q` is
true when `q` starts with `p`. -/
def underDir : EntryPath → EntryPath → Bool
  | [], _ => true
  | _ :: _, [] => false
  | a :: s, b :: t => a == b && underDir s t

/-- Rust `Path::file_name` for a path made of normal components: its last
component, if any. -/
def pathFileName (p : EntryPath) : Option PathComp :=
  p.getLast?

/-- `git::DOT_GIT`. -/
def dotGit : PathComp := pc ".git"

/-- Modelled from the spec: `paths::local_settings_folder_relative_path()`,
the local-settings folder name, defined in the `paths` crate which is not part
of the sources; the spec only calls it "the local-settings folder". -/
def localSettingsFolder : PathComp := pc ".zed"

section SortedMap

variable {α : Type} {κ : Type} [LinearOrder κ]

/-- `SumTree::get`: keyed lookup (the cursor seeks to the key and yields the
item there iff its key matches). -/
def smGet (key : α → κ) (k : κ) : List α → Option α
  | [] => none
  | y :: ys => if key y = k then some y else smGet key k ys

/-- `SumTree::insert_or_replace`: insert at the ordered position, replacing
the existing item with the same key, if any. -/
def smInsert (key : α → κ) (x : α) : List α → List α
  | [] => [x]
  | y :: ys =>
    if key x < key y then x :: y :: ys
    else if key x = key y then x :: ys
    else y :: smInsert key x ys

/-- `SumTree::remove`: remove the item with the given key, if present. -/
def smRemove (key : α → κ) (k : κ) : List α → List α
  | [] => []
  | y :: ys => if key y = k then ys else y :: smRemove key k ys

/-- One element of the edit batches fed to `SumTree::edit`. -/
inductive MapEdit (α κ : Type) where
  | ins (x : α)
  | rem (k : κ)

/-- The keys removed by a batch of edits. -/
def editRemovedKeys : List (MapEdit α κ) → List κ
  | [] => []
  | .ins _ :: es => editRemovedKeys es
  | .rem k :: es => k :: editRemovedKeys es

/-- The items inserted by a batch of edits, in order. -/
def editInserts : List (MapEdit α κ) → List α
  | [] => []
  | .ins x :: es => x :: editInserts es
  | .rem _ :: es => editInserts es

/-- `SumTree::edit`: apply a batch of removals and insertions.  On key-deduped
trees (the only trees the modelled operations build) the batch semantics of
`sum_tree` — each edit consumes the old item with its key, insertions are then
merged in — is: drop every old item whose key is mentioned by a removal or
replaced by an insertion, then add the inserted items at their positions. -/
def smEdit (key : α → κ) (m : List α) (edits : List (MapEdit α κ)) : List α :=
  (editInserts edits).foldl (fun acc x => smInsert key x acc)
    (m.filter fun e => !((editRemovedKeys edits).contains (key e)))

/-- Strict sortedness of an index by its key: the well-formedness invariant
every `SumTree` keyed by `KeyedItem` maintains. -/
def smWF (key : α → κ) (m : List α) : Prop :=
  List.Pairwise (fun a b => key a < key b) m

end SortedMap

/-- Modelled from the spec: `git::status::UnmergedStatusCode` ("Both unmerged
heads use \x7bAdded, Updated, Deleted\x7d"); the `git` crate is not in the
sources. -/
inductive UnmergedStatusCode where
  | added
  | updated
  | deleted
deriving DecidableEq, Repr

/-- Modelled from the spec: `git::status::UnmergedStatus`
(`Unmerged{first_head, second_head}`). -/
structure UnmergedStatus where
  firstHead : UnmergedStatusCode
  secondHead : UnmergedStatusCode
deriving DecidableEq, Repr

/-- Modelled from the spec: `git::status::StatusCode` ("tracked codes include
\x7bUnmodified, Modified, TypeChanged, Added, Deleted, Renamed, Copied\x7d"). -/
inductive StatusCode where
  | unmodified
  | modified
  | typeChanged
  | added
  | deleted
  | renamed
  | copied
deriving DecidableEq, Repr

/-- Modelled from the spec: `git::status::TrackedStatus`
(`Tracked{index_status, worktree_status}`). -/
structure TrackedStatus where
  indexStatus : StatusCode
  worktreeStatus : StatusCode
deriving DecidableEq, Repr

/-- Modelled from the spec: `git::status::FileStatus`, "a tagged union:
Untracked, Ignored, Unmerged\x7b..\x7d, Tracked\x7b..\x7d". -/
inductive FileStatus where
  | untracked
  | ignored
  | unmerged (u : UnmergedStatus)
  | tracked (t : TrackedStatus)
deriving DecidableEq, Repr

/-- A path relative to a repository's work directory (`git::repository::RepoPath`). -/
abbrev RepoPath := EntryPath

/-- `worktree::StatusEntry`. -/
structure StatusEntry where
  repoPath : RepoPath
  status : FileStatus
deriving DecidableEq, Repr

/-- The wire status code `proto::GitStatus`.  The wire carries it as an `i32`;
the enumeration models exactly the named codes the source maps to and from,
abstracting the numeric values (the mapping to `i32` is injective). -/
inductive GitStatus where
  | added
  | modified
  | conflict
  | deleted
  | updated
  | typeChanged
  | renamed
  | copied
  | unmodified
deriving DecidableEq, Repr

/-- The wire variant `proto::git_file_status::Variant`, with the enclosing
`proto::GitFileStatus { variant: Option<Variant> }` wrapper collapsed into the
`Option` at each use site. -/
inductive ProtoGitStatusVariant where
  | untracked
  | ignored
  | unmerged (firstHead secondHead : GitStatus)
  | tracked (indexStatus worktreeStatus : GitStatus)
deriving DecidableEq, Repr

/-- The wire message `proto::StatusEntry`.  `repo_path` travels as a lossy
UTF-8 string; re-parsing it yields the same components, so it is kept as a
path here. -/
structure ProtoStatusEntry where
  repoPath : RepoPath
  simpleStatus : GitStatus
  status : Option ProtoGitStatusVariant
deriving DecidableEq, Repr

/-- `unmerged_status_to_proto`. -/
def unmergedStatusToProto : UnmergedStatusCode → GitStatus
  | .added => .added
  | .deleted => .deleted
  | .updated => .updated

/-- `tracked_status_to_proto`. -/
def trackedStatusToProto : StatusCode → GitStatus
  | .added => .added
  | .deleted => .deleted
  | .modified => .modified
  | .renamed => .renamed
  | .typeChanged => .typeChanged
  | .copied => .copied
  | .unmodified => .unmodified

/-- `status_to_proto`. -/
def statusToProto : FileStatus → ProtoGitStatusVariant
  | .untracked => .untracked
  | .ignored => .ignored
  | .unmerged u => .unmerged (unmergedStatusToProto u.firstHead) (unmergedStatusToProto u.secondHead)
  | .tracked t => .tracked (trackedStatusToProto t.indexStatus) (trackedStatusToProto t.worktreeStatus)

/-- `StatusEntry::to_proto`, including the `simple_status` fallback code. -/
def StatusEntry.toProto (e : StatusEntry) : ProtoStatusEntry :=
  { repoPath := e.repoPath
    simpleStatus :=
      match e.status with
      | .ignored | .untracked => .added
      | .unmerged _ => .conflict
      | .tracked t =>
        trackedStatusToProto
          (if t.worktreeStatus ≠ .unmodified then t.worktreeStatus else t.indexStatus)
    status := some (statusToProto e.status) }

/-- The decoding of one unmerged head in `status_from_proto`; invalid codes
are decode errors (`none`). -/
def unmergedStatusFromProto : GitStatus → Option UnmergedStatusCode
  | .added => some .added
  | .updated => some .updated
  | .deleted => some .deleted
  | _ => none

/-- The decoding of one tracked code in `status_from_proto`; invalid codes are
decode errors (`none`). -/
def trackedStatusFromProto : GitStatus → Option StatusCode
  | .modified => some .modified
  | .typeChanged => some .typeChanged
  | .added => some .added
  | .deleted => some .deleted
  | .renamed => some .renamed
  | .copied => some .copied
  | .unmodified => some .unmodified
  | _ => none

/-- `status_from_proto`: with no variant, fall back to decoding
`simple_status`; otherwise decode the variant, rejecting invalid codes. -/
def statusFromProto (simpleStatus : GitStatus) (status : Option ProtoGitStatusVariant) :
    Option FileStatus :=
  match status with
  | none =>
    match simpleStatus with
    | .added => some (.tracked ⟨.unmodified, .added⟩)
    | .modified => some (.tracked ⟨.unmodified, .modified⟩)
    | .conflict => some (.unmerged ⟨.updated, .updated⟩)
    | .deleted => some (.tracked ⟨.unmodified, .deleted⟩)
    | _ => none
  | some .untracked => some .untracked
  | some .ignored => some .ignored
  | some (.unmerged f s) => do
    let firstHead ← unmergedStatusFromProto f
    let secondHead ← unmergedStatusFromProto s
    some (.unmerged ⟨firstHead, secondHead⟩)
  | some (.tracked i w) => do
    let indexStatus ← trackedStatusFromProto i
    let worktreeStatus ← trackedStatusFromProto w
    some (.tracked ⟨indexStatus, worktreeStatus⟩)

/-- `TryFrom<proto::StatusEntry> for StatusEntry`. -/
def statusEntryFromProto (p : ProtoStatusEntry) : Option StatusEntry :=
  (statusFromProto p.simpleStatus p.status).map fun status =>
    { repoPath := p.repoPath, status }

/-- `worktree::RepositoryEntry`.  The `WorkDirectory` struct is inlined as the
`workDirectoryPath` and `locationInRepo` fields.  `statusesByPath` is kept
strictly sorted by `repoPath`. -/
structure RepositoryEntry where
  statusesByPath : List StatusEntry
  workDirectoryId : Nat
  workDirectoryPath : EntryPath
  locationInRepo : Option EntryPath
  branch : Option String
deriving DecidableEq, Repr

/-- The wire message `proto::RepositoryEntry`. -/
structure ProtoRepositoryEntry where
  workDirectoryId : Nat
  branch : Option String
  updatedStatuses : List ProtoStatusEntry
  removedStatuses : List RepoPath
deriving DecidableEq, Repr

/-- The two-pointer lexicographic merge inside `RepositoryEntry::build_update`:
walk the new and old status sequences in order and emit `updated_statuses`
and `removed_statuses`.  The first argument is the new sequence, the second
the old one, matching the loop over `new_statuses` and `old_statuses`. -/
def buildStatusesDiff : List StatusEntry → List StatusEntry →
    List ProtoStatusEntry × List RepoPath
  | [], [] => ([], [])
  | [], o :: os =>
    let (u, r) := buildStatusesDiff [] os
    (u, o.repoPath :: r)
  | n :: ns, [] =>
    let (u, r) := buildStatusesDiff ns []
    (n.toProto :: u, r)
  | n :: ns, o :: os =>
    if n.repoPath < o.repoPath then
      let (u, r) := buildStatusesDiff ns (o :: os)
      (n.toProto :: u, r)
    else if n.repoPath = o.repoPath then
      let (u, r) := buildStatusesDiff ns os
      (if n.status ≠ o.status then n.toProto :: u else u, r)
    else
      let (u, r) := buildStatusesDiff (n :: ns) os
      (u, o.repoPath :: r)
termination_by n o => n.length + o.length

/-- `RepositoryEntry::build_update`: diff the two status maps and forward the
current branch. -/
def RepositoryEntry.buildUpdate (self old : RepositoryEntry) : ProtoRepositoryEntry :=
  let (updatedStatuses, removedStatuses) :=
    buildStatusesDiff self.statusesByPath old.statusesByPath
  { workDirectoryId := self.workDirectoryId
    branch := self.branch
    updatedStatuses
    removedStatuses }

/-- `RepositoryEntry::initial_update`: every status is an insertion, nothing
is removed. -/
def RepositoryEntry.initialUpdate (self : RepositoryEntry) : ProtoRepositoryEntry :=
  { workDirectoryId := self.workDirectoryId
    branch := self.branch
    updatedStatuses := self.statusesByPath.map StatusEntry.toProto
    removedStatuses := [] }

/-- The per-repository branch of `Snapshot::apply_remote_update` when the
repository is already present: replay the removals then the decoded
insertions on `statuses_by_path` (entries that fail to decode are dropped by
`log_err`), and refresh the branch. -/
def RepositoryEntry.applyUpdate (repo : RepositoryEntry) (u : ProtoRepositoryEntry) :
    RepositoryEntry :=
  let edits : List (MapEdit StatusEntry RepoPath) :=
    u.removedStatuses.map MapEdit.rem ++
      u.updatedStatuses.filterMap fun p => (statusEntryFromProto p).map MapEdit.ins
  { repo with
    branch := u.branch
    statusesByPath := smEdit StatusEntry.repoPath repo.statusesByPath edits }

/-- `worktree::EntryKind`. -/
inductive EntryKind where
  | unloadedDir
  | pendingDir
  | dir
  | file
deriving DecidableEq, Repr

/-- `EntryKind::is_dir`. -/
def EntryKind.isDir : EntryKind → Bool
  | .dir | .pendingDir | .unloadedDir => true
  | .file => false

/-- `EntryKind::is_file`. -/
def EntryKind.isFile : EntryKind → Bool
  | .file => true
  | _ => false

/-- `worktree::Entry`.  `ProjectEntryId` and inodes are `Nat`; `MTime` values
are opaque totally-ordered stamps, modelled as `Nat`.  The derived lowercase
`char_bag` (a fuzzy-matching cache recomputed from the path) is omitted: no
modelled operation reads it. -/
structure Entry where
  id : Nat
  kind : EntryKind
  path : EntryPath
  inode : Nat
  mtime : Option Nat
  canonicalPath : Option EntryPath
  isIgnored : Bool
  isAlwaysIncluded : Bool
  isExternal : Bool
  isPrivate : Bool
  size : Nat
  isFifo : Bool
deriving DecidableEq, Repr

/-- `Entry::is_dir`. -/
def Entry.isDir (e : Entry) : Bool := e.kind.isDir

/-- `Entry::is_file`. -/
def Entry.isFile (e : Entry) : Bool := e.kind.isFile

/-- `worktree::PathEntry`, the identity-index row. -/
structure PathEntry where
  id : Nat
  path : EntryPath
  isIgnored : Bool
  scanId : Nat
deriving DecidableEq, Repr

/-- The wire message `proto::Entry`. -/
structure ProtoEntry where
  id : Nat
  isDir : Bool
  path : EntryPath
  inode : Nat
  mtime : Option Nat
  isIgnored : Bool
  isExternal : Bool
  isFifo : Bool
  size : Option Nat
  canonicalPath : Option EntryPath
deriving DecidableEq, Repr

/-- `From<&Entry> for proto::Entry`. -/
def Entry.toProto (e : Entry) : ProtoEntry :=
  { id := e.id
    isDir := e.isDir
    path := e.path
    inode := e.inode
    mtime := e.mtime
    isIgnored := e.isIgnored
    isExternal := e.isExternal
    isFifo := e.isFifo
    size := some e.size
    canonicalPath := e.canonicalPath }

/-- `TryFrom<(&CharBag, &PathMatcher, proto::Entry)> for Entry`.  The
`PathMatcher` of always-included patterns is abstracted as a predicate on
paths.  The conversion in the source returns `Ok` on every input, so it is
total here; the char bag it computes is omitted with the field. -/
def Entry.fromProto (alwaysIncluded : EntryPath → Bool) (e : ProtoEntry) : Entry :=
  { id := e.id
    kind := if e.isDir then .dir else .file
    path := e.path
    inode := e.inode
    mtime := e.mtime
    size := e.size.getD 0
    canonicalPath := e.canonicalPath
    isIgnored := e.isIgnored
    isAlwaysIncluded := alwaysIncluded e.path
    isExternal := e.isExternal
    isPrivate := false
    isFifo := e.isFifo }

/-- The wire message `proto::UpdateWorktree` (the `project_id` and
`worktree_id` routing fields are not read by the modelled operations). -/
structure ProtoUpdateWorktree where
  absPath : EntryPath
  rootName : String
  updatedEntries : List ProtoEntry
  removedEntries : List Nat
  scanId : Nat
  isLastUpdate : Bool
  updatedRepositories : List ProtoRepositoryEntry
  removedRepositories : List Nat
deriving DecidableEq, Repr

/-- `worktree::Snapshot`.  The worktree id and the derived root char bag are
omitted (no modelled operation depends on them); `entries_by_path` is kept
strictly sorted by path, `entries_by_id` strictly sorted by id, and
`repositories` strictly sorted by work-directory path. -/
structure Snapshot where
  absPath : EntryPath
  rootName : String
  entriesByPath : List Entry
  entriesById : List PathEntry
  alwaysIncludedEntries : List EntryPath
  repositories : List RepositoryEntry
  scanId : Nat
  completedScanId : Nat
deriving DecidableEq, Repr

/-- `Snapshot::new`: the empty snapshot with `scan_id = 1`,
`completed_scan_id = 0`. -/
def Snapshot.new (rootName : String) (absPath : EntryPath) : Snapshot :=
  { absPath
    rootName
    entriesByPath := []
    entriesById := []
    alwaysIncludedEntries := []
    repositories := []
    scanId := 1
    completedScanId := 0 }

/-- `Snapshot::entry_for_path`: seek the ordered path tree to the given path
and yield the entry there iff its path matches exactly — keyed lookup. -/
def Snapshot.entryForPath (s : Snapshot) (p : EntryPath) : Option Entry :=
  smGet Entry.path p s.entriesByPath

/-- `Snapshot::entry_for_id`: look the id up in the identity index, then
resolve its recorded path through the path tree. -/
def Snapshot.entryForId (s : Snapshot) (id : Nat) : Option Entry :=
  (smGet PathEntry.id id s.entriesById).bind fun pe => s.entryForPath pe.path

/-- `Snapshot::contains_entry`. -/
def Snapshot.containsEntry (s : Snapshot) (id : Nat) : Bool :=
  (smGet PathEntry.id id s.entriesById).isSome

/-- `Snapshot::insert_entry` (the remote-side mutation): convert the wire
entry, insert-or-replace it in the identity index, drop the replaced row's
path from the path tree, then insert-or-replace the entry in the path tree. -/
def Snapshot.insertEntry (s : Snapshot) (protoEntry : ProtoEntry)
    (alwaysIncludedPaths : EntryPath → Bool) : Snapshot × Entry :=
  let entry := Entry.fromProto alwaysIncludedPaths protoEntry
  let oldEntry := smGet PathEntry.id entry.id s.entriesById
  let entriesById := smInsert PathEntry.id
    { id := entry.id, path := entry.path, isIgnored := entry.isIgnored, scanId := 0 }
    s.entriesById
  let entriesByPath :=
    match oldEntry with
    | some old => smRemove Entry.path old.path s.entriesByPath
    | none => s.entriesByPath
  let entriesByPath := smInsert Entry.path entry entriesByPath
  ({ s with entriesByPath, entriesById }, entry)

/-- `Snapshot::delete_entry`: drop the id from the identity index; then slice
the path tree at the recorded path and consume the contiguous run of entries
whose paths start with it (the subtree), removing each consumed entry's id
from the identity index as well; return the recorded path. -/
def Snapshot.deleteEntry (s : Snapshot) (entryId : Nat) : Snapshot × Option EntryPath :=
  match smGet PathEntry.id entryId s.entriesById with
  | none => (s, none)
  | some removedEntry =>
    let entriesById := smRemove PathEntry.id entryId s.entriesById
    let newEntries := s.entriesByPath.takeWhile fun e => decide (e.path < removedEntry.path)
    let rest := s.entriesByPath.drop newEntries.length
    let subtree := rest.takeWhile fun e => underDir removedEntry.path e.path
    let suffix := rest.drop subtree.length
    let entriesById := subtree.foldl (fun m e => smRemove PathEntry.id e.id m) entriesById
    ({ s with entriesByPath := newEntries ++ suffix, entriesById },
      some removedEntry.path)

/-- The kind adjustment at the top of `LocalSnapshot::insert_entry`: a pending
directory keeps the kind already recorded at its path. -/
def localInsertAdjust (s : Snapshot) (entry : Entry) : Entry :=
  if entry.kind = .pendingDir then
    match smGet Entry.path entry.path s.entriesByPath with
    | some existingEntry => { entry with kind := existingEntry.kind }
    | none => entry
  else entry

/-- `LocalSnapshot::insert_entry` acts on the `Snapshot` shared fields; the
gitignore side effect (parsing a changed `.gitignore` from the filesystem into
`ignores_by_parent_abs_path`) is I/O on state outside the entry indices and is
not modelled.  The entry replaces any entry at its path, whose id is dropped
from the identity index when it differs; the identity row is stamped with the
current scan id. -/
def Snapshot.localInsertEntry (s : Snapshot) (entry : Entry) : Snapshot × Entry :=
  let entry := localInsertAdjust s entry
  let removed := smGet Entry.path entry.path s.entriesByPath
  let entriesByPath := smInsert Entry.path entry s.entriesByPath
  let entriesById :=
    match removed with
    | some removedEntry =>
      if removedEntry.id ≠ entry.id then
        smRemove PathEntry.id removedEntry.id s.entriesById
      else s.entriesById
    | none => s.entriesById
  let entriesById := smInsert PathEntry.id
    { id := entry.id, path := entry.path, isIgnored := entry.isIgnored, scanId := s.scanId }
    entriesById
  ({ s with entriesByPath, entriesById }, entry)

/-- `Snapshot::update_abs_path` (the derived root char bag is omitted with
its field). -/
def Snapshot.updateAbsPath (s : Snapshot) (absPath : EntryPath) (rootName : String) :
    Snapshot :=
  { s with absPath, rootName }

/-- One iteration of the `removed_entries` loop of
`Snapshot::apply_remote_update`: a removal from the identity index plus —
when the id resolves through both indices — a removal of its recorded path
from the path tree. -/
def entryEditsRemStep (s : Snapshot)
    (acc : List (MapEdit Entry EntryPath) × List (MapEdit PathEntry Nat))
    (entryId : Nat) :
    List (MapEdit Entry EntryPath) × List (MapEdit PathEntry Nat) :=
  let pathEdits :=
    match s.entryForId entryId with
    | some entry => acc.1 ++ [MapEdit.rem entry.path]
    | none => acc.1
  (pathEdits, acc.2 ++ [MapEdit.rem entryId])

/-- One iteration of the `updated_entries` loop of
`Snapshot::apply_remote_update`: a removal of the path previously recorded
for the entry's id, a removal of a different id occupying its target path,
and the two insertions. -/
def entryEditsUpdStep (s : Snapshot) (alwaysIncludedPaths : EntryPath → Bool)
    (acc : List (MapEdit Entry EntryPath) × List (MapEdit PathEntry Nat))
    (protoEntry : ProtoEntry) :
    List (MapEdit Entry EntryPath) × List (MapEdit PathEntry Nat) :=
  let entry := Entry.fromProto alwaysIncludedPaths protoEntry
  let pathEdits :=
    match smGet PathEntry.id entry.id s.entriesById with
    | some pe => acc.1 ++ [MapEdit.rem pe.path]
    | none => acc.1
  let idEdits :=
    match smGet Entry.path entry.path s.entriesByPath with
    | some oldEntry =>
      if oldEntry.id ≠ entry.id then acc.2 ++ [MapEdit.rem oldEntry.id] else acc.2
    | none => acc.2
  (pathEdits ++ [MapEdit.ins entry],
    idEdits ++ [MapEdit.ins
      { id := entry.id, path := entry.path, isIgnored := entry.isIgnored, scanId := 0 }])

/-- The edit batches accumulated by the entry half of
`Snapshot::apply_remote_update`.  All lookups read the indices as they were
before the batch is applied, exactly as in the source, where the edits are
only applied after the loops. -/
def applyRemoteUpdateEntryEdits (s : Snapshot) (u : ProtoUpdateWorktree)
    (alwaysIncludedPaths : EntryPath → Bool) :
    List (MapEdit Entry EntryPath) × List (MapEdit PathEntry Nat) :=
  let step1 := u.removedEntries.foldl (entryEditsRemStep s) ([], [])
  u.updatedEntries.foldl (entryEditsUpdStep s alwaysIncludedPaths) step1

/-- One iteration of the `updated_repositories` loop of
`Snapshot::apply_remote_update`: resolve the work-directory entry; replay the
status edits when the repository is known, otherwise construct it with
`location_in_repo = None`; with no work-directory entry, only log. -/
def Snapshot.applyRepositoryUpdate (s : Snapshot) (repository : ProtoRepositoryEntry) :
    Snapshot :=
  match s.entryForId repository.workDirectoryId with
  | some workDirEntry =>
    match smGet RepositoryEntry.workDirectoryPath workDirEntry.path s.repositories with
    | some repo =>
      let repositories :=
        smInsert RepositoryEntry.workDirectoryPath (repo.applyUpdate repository)
          s.repositories
      { s with repositories }
    | none =>
      let statuses := repository.updatedStatuses.filterMap statusEntryFromProto
      let newRepo : RepositoryEntry :=
        { workDirectoryId := repository.workDirectoryId
          workDirectoryPath := workDirEntry.path
          locationInRepo := none
          branch := repository.branch
          statusesByPath := statuses }
      let repositories :=
        smInsert RepositoryEntry.workDirectoryPath newRepo s.repositories
      { s with repositories }
  | none => s

/-- The repository half of `Snapshot::apply_remote_update`, run after the
entry edits have been applied: drop the removed repositories, then process
each updated repository in order. -/
def applyRemoteRepositoryUpdates (s : Snapshot) (u : ProtoUpdateWorktree) : Snapshot :=
  let repositories := s.repositories.filter fun r =>
    !(u.removedRepositories.contains r.workDirectoryId)
  u.updatedRepositories.foldl Snapshot.applyRepositoryUpdate { s with repositories }

/-- `Snapshot::apply_remote_update`.  The `Entry::try_from` conversions inside
it return `Ok` on every input, so the whole application is total. -/
def Snapshot.applyRemoteUpdate (s : Snapshot) (u : ProtoUpdateWorktree)
    (alwaysIncludedPaths : EntryPath → Bool) : Snapshot :=
  let s := s.updateAbsPath u.absPath u.rootName
  let (pathEdits, idEdits) := applyRemoteUpdateEntryEdits s u alwaysIncludedPaths
  let s :=
    { s with
      entriesByPath := smEdit Entry.path s.entriesByPath pathEdits
      entriesById := smEdit PathEntry.id s.entriesById idEdits }
  let s := applyRemoteRepositoryUpdates s u
  { s with
    scanId := u.scanId
    completedScanId := if u.isLastUpdate then u.scanId else s.completedScanId }

/-- `worktree::PathChange`. -/
inductive PathChange where
  | added
  | removed
  | updated
  | addedOrUpdated
  | loaded
deriving DecidableEq, Repr

/-- Insertion sort by a `Nat` key, modelling the `sort_unstable_by_key`
calls of `Snapshot::build_update` (the source's sort is unstable, but every
stated property is order-insensitive among equal keys). -/
def sortedInsertOn (key : α → Nat) (x : α) : List α → List α
  | [] => [x]
  | y :: ys => if key x ≤ key y then x :: y :: ys else y :: sortedInsertOn key x ys

/-- Sort a list by a `Nat` key. -/
def sortOn (key : α → Nat) : List α → List α
  | [] => []
  | x :: xs => sortedInsertOn key x (sortOn key xs)

/-- `GitRepositoryChange` paired with its work-directory path, as produced by
`changed_repos`: the previous state of the repository, if it already
existed. -/
structure RepoChange where
  workDirPath : EntryPath
  oldRepository : Option RepositoryEntry
deriving DecidableEq, Repr

/-- `Snapshot::build_update` (the delta builder): collect removed ids and
updated wire entries from the change set, diff each changed repository, sort
the four lists, and drop removed ids that also appear among the updated
entries (`binary_search` on the sorted updated list decides membership). -/
def Snapshot.buildUpdate (s : Snapshot)
    (entryChanges : List (EntryPath × Nat × PathChange))
    (repoChanges : List RepoChange) : ProtoUpdateWorktree :=
  let step := entryChanges.foldl
    (fun (acc : List ProtoEntry × List Nat) change =>
      if change.2.2 = PathChange.removed then (acc.1, acc.2 ++ [change.2.1])
      else
        match s.entryForId change.2.1 with
        | some entry => (acc.1 ++ [entry.toProto], acc.2)
        | none => acc)
    ([], [])
  let repoStep := repoChanges.foldl
    (fun (acc : List ProtoRepositoryEntry × List Nat) change =>
      let newRepo := smGet RepositoryEntry.workDirectoryPath change.workDirPath s.repositories
      match change.oldRepository, newRepo with
      | some oldRepo, some newRepo => (acc.1 ++ [newRepo.buildUpdate oldRepo], acc.2)
      | none, some newRepo => (acc.1 ++ [newRepo.initialUpdate], acc.2)
      | some oldRepo, none => (acc.1, acc.2 ++ [oldRepo.workDirectoryId])
      | none, none => acc)
    ([], [])
  let updatedEntries := sortOn ProtoEntry.id step.1
  let removedEntries := sortOn id step.2
  let updatedRepositories := sortOn ProtoRepositoryEntry.workDirectoryId repoStep.1
  let removedRepositories := sortOn id repoStep.2
  let removedEntries := removedEntries.filter fun entryId =>
    !((updatedEntries.map ProtoEntry.id).contains entryId)
  { absPath := s.absPath
    rootName := s.rootName
    updatedEntries
    removedEntries
    scanId := s.scanId
    isLastUpdate := s.completedScanId = s.scanId
    updatedRepositories
    removedRepositories }

/-- A component of the `&Path` argument of `Snapshot::absolutize`, as
classified by `std::path::Component` (`Prefix` components only exist on
Windows and are subsumed by `rootDir` for this model). -/
inductive PathComponent where
  | normal (s : PathComp)
  | parentDir
  | curDir
  | rootDir
deriving DecidableEq, Repr

/-- Whether a component matches `Component::Normal(_)`. -/
def PathComponent.isNormal : PathComponent → Bool
  | .normal _ => true
  | _ => false

/-- `Path::file_name` on a component list: the last component when it is
normal (a path ending in `..` or `.` or empty has no file name). -/
def componentFileName (p : List PathComponent) : Option PathComp :=
  match p.getLast? with
  | some (.normal s) => some s
  | _ => none

/-- The normal components of a path, in order; joining an all-normal relative
path onto the root appends exactly these. -/
def normalComponents (p : List PathComponent) : EntryPath :=
  p.filterMap fun c =>
    match c with
    | .normal s => some s
    | _ => none

/-- `Snapshot::absolutize`: reject a path with any non-normal component
(`Err`, modelled as `none`); otherwise join it onto the absolute root, or
return the root itself when the path has no file name. -/
def Snapshot.absolutize (s : Snapshot) (path : List PathComponent) : Option EntryPath :=
  if path.any fun c => !c.isNormal then none
  else if (componentFileName path).isSome then some (s.absPath ++ normalComponents path)
  else some s.absPath

/-- Lookup in the `HashMap<u64, Entry>` of entries removed during the current
scan batch, keyed by inode. -/
def hmGet (m : List (Nat × Entry)) (k : Nat) : Option Entry :=
  match m with
  | [] => none
  | (k2, v) :: rest => if k2 = k then some v else hmGet rest k

/-- `HashMap::remove`: drop the binding for a key. -/
def hmErase (m : List (Nat × Entry)) (k : Nat) : List (Nat × Entry) :=
  match m with
  | [] => []
  | (k2, v) :: rest => if k2 = k then rest else (k2, v) :: hmErase rest k

/-- `HashMap` insertion-or-replacement for a key. -/
def hmSet (m : List (Nat × Entry)) (k : Nat) (v : Entry) : List (Nat × Entry) :=
  match m with
  | [] => [(k, v)]
  | (k2, v2) :: rest => if k2 = k then (k, v) :: rest else (k2, v2) :: hmSet rest k v

/-- `worktree::BackgroundScannerState`, restricted to the fields the modelled
operations read or write.  `prev_snapshot`, `changed_paths`, and the
filesystem-bound `LocalSnapshot` extras (`ignores_by_parent_abs_path`,
`git_repositories`, the root file handle) are not modelled; `removed_entries`
is the per-scan map from inode to the removed entry. -/
structure BackgroundScannerState where
  snapshot : Snapshot
  scannedDirs : List Nat
  pathPrefixesToScan : List EntryPath
  pathsToScan : List EntryPath
  removedEntries : List (Nat × Entry)
deriving DecidableEq, Repr

/-- `BackgroundScannerState::should_scan_directory`. -/
def BackgroundScannerState.shouldScanDirectory (st : BackgroundScannerState)
    (entry : Entry) : Bool :=
  (!entry.isExternal && (!entry.isIgnored || entry.isAlwaysIncluded))
    || pathFileName entry.path == some dotGit
    || pathFileName entry.path == some localSettingsFolder
    || st.scannedDirs.contains entry.id
    || st.pathsToScan.any (fun p => underDir entry.path p)
    || st.pathPrefixesToScan.any (fun p => underDir p entry.path)

/-- `BackgroundScannerState::reuse_entry_id`: only an entry carrying an mtime
is considered; consume the removed entry recorded for its inode and take over
its id when the mtime or the path matches; with no removed entry for the
inode, take over the id of an existing entry at the same path. -/
def BackgroundScannerState.reuseEntryId (st : BackgroundScannerState) (entry : Entry) :
    BackgroundScannerState × Entry :=
  match entry.mtime with
  | some mtime =>
    match hmGet st.removedEntries entry.inode with
    | some removedEntry =>
      let st := { st with removedEntries := hmErase st.removedEntries entry.inode }
      if removedEntry.mtime = some mtime || removedEntry.path = entry.path then
        (st, { entry with id := removedEntry.id })
      else (st, entry)
    | none =>
      match st.snapshot.entryForPath entry.path with
      | some existingEntry => (st, { entry with id := existingEntry.id })
      | none => (st, entry)
  | none => (st, entry)

/-- `BackgroundScannerState::insert_entry`: reuse an id when possible, then
insert through `LocalSnapshot::insert_entry`.  The `.git` repository
registration and the test-only invariant check are filesystem side effects
outside the model. -/
def BackgroundScannerState.insertEntry (st : BackgroundScannerState) (entry : Entry) :
    BackgroundScannerState × Entry :=
  let (st, entry) := st.reuseEntryId entry
  let (snapshot, entry) := st.snapshot.localInsertEntry entry
  ({ st with snapshot }, entry)

/-- `BackgroundScannerState::remove_path`: slice the path tree at the path and
cut out the contiguous run of entries whose paths start with it; record each
removed entry in the per-scan removed-entries map keyed by inode, keeping the
entry with the larger id on collision; remove the collected ids from the
identity index and drop repositories whose work directory lies under the
removed path.  The `.gitignore` refresh flag and the local `git_repositories`
map are filesystem-bound state outside the model. -/
def BackgroundScannerState.removePath (st : BackgroundScannerState) (path : EntryPath) :
    BackgroundScannerState :=
  let newEntries := st.snapshot.entriesByPath.takeWhile fun e => decide (e.path < path)
  let rest := st.snapshot.entriesByPath.drop newEntries.length
  let removedEntries := rest.takeWhile fun e => underDir path e.path
  let suffix := rest.drop removedEntries.length
  let removedMap := removedEntries.foldl
    (fun m e =>
      match hmGet m e.inode with
      | some prev => if e.id > prev.id then hmSet m e.inode e else m
      | none => hmSet m e.inode e)
    st.removedEntries
  let removedIds := (sortOn id (removedEntries.map Entry.id)).dedup
  let entriesById := removedIds.foldl
    (fun m entryId => smRemove PathEntry.id entryId m) st.snapshot.entriesById
  let repositories := st.snapshot.repositories.filter fun r =>
    !(underDir path r.workDirectoryPath)
  { st with
    removedEntries := removedMap
    snapshot :=
      { st.snapshot with
        entriesByPath := newEntries ++ suffix
        entriesById
        repositories } }

/-- The fields of `worktree::RemoteWorktree` that the scan-id subscription
mechanism reads: the mirror snapshot's `completed_scan_id`, the disconnect
flag, and the queue of pending `(scan_id, sender)` subscriptions (each sender
represented by its target scan id). -/
structure RemoteWorktreeState where
  completedScanId : Nat
  disconnected : Bool
  snapshotSubscriptions : List Nat
deriving DecidableEq, Repr

/-- The three possible fates of the future returned by
`RemoteWorktree::wait_for_snapshot`: already resolved on return, failed
because the sender was dropped, or registered in the subscription queue. -/
inductive WaitOutcome where
  | resolvedNow
  | failed
  | registered
deriving DecidableEq, Repr

/-- `RemoteWorktree::observed_snapshot`. -/
def RemoteWorktreeState.observedSnapshot (st : RemoteWorktreeState) (scanId : Nat) : Bool :=
  decide (st.completedScanId ≥ scanId)

/-- The ordered insertion performed by `wait_for_snapshot` through
`binary_search_by_key` on the subscription queue: on `Ok(ix)` or `Err(ix)`
the new target is inserted at `ix`, keeping the queue sorted. -/
def subscriptionInsert (scanId : Nat) : List Nat → List Nat
  | [] => [scanId]
  | k :: ks => if scanId ≤ k then scanId :: k :: ks else k :: subscriptionInsert scanId ks

/-- `RemoteWorktree::wait_for_snapshot`: resolve immediately for an already
observed scan id; fail (drop the sender) when disconnected; otherwise
register the awaiter at its sorted position. -/
def RemoteWorktreeState.waitForSnapshot (st : RemoteWorktreeState) (scanId : Nat) :
    RemoteWorktreeState × WaitOutcome :=
  if st.observedSnapshot scanId then (st, .resolvedNow)
  else if st.disconnected then (st, .failed)
  else
    ({ st with snapshotSubscriptions := subscriptionInsert scanId st.snapshotSubscriptions },
      .registered)

/-- The release loop run by the remote worktree's foreground task after each
batch of updates: pop subscriptions from the front while their target scan id
has been observed, sending to each; return the released targets in pop order
and the remaining queue. -/
def releaseSnapshotSubscriptions (subscriptions : List Nat) (completedScanId : Nat) :
    List Nat × List Nat :=
  (subscriptions.takeWhile fun k => decide (k ≤ completedScanId),
    subscriptions.dropWhile fun k => decide (k ≤ completedScanId))

/-- The `(path, id)` pairs recorded by the path tree. -/
def entryPairs (s : Snapshot) : List (EntryPath × Nat) :=
  s.entriesByPath.map fun e => (e.path, e.id)

/-- The `(path, id)` pairs recorded by the identity index. -/
def idPairs (s : Snapshot) : List (EntryPath × Nat) :=
  s.entriesById.map fun pe => (pe.path, pe.id)

/-- §8 invariant: the path tree and the identity index agree on the set of
`(path, id)` pairs. -/
def agreeEntries (s : Snapshot) : Prop :=
  ∀ pr : EntryPath × Nat, pr ∈ entryPairs s ↔ pr ∈ idPairs s

/-- Well-formedness of a snapshot's entry indices: both indices are strictly
sorted by their key and agree on the recorded `(path, id)` pairs. -/
def Snapshot.wf (s : Snapshot) : Prop :=
  smWF Entry.path s.entriesByPath ∧ smWF PathEntry.id s.entriesById ∧ agreeEntries s

/-- The agreement invariant stated through lookups: a path resolves to an
entry with a given id exactly when the id resolves to a row recording that
path.  On indices sorted by their keys this is equivalent to
`agreeEntries`. -/
def lookupAgree (s : Snapshot) : Prop :=
  ∀ (p : EntryPath) (i : Nat),
    (∃ e, smGet Entry.path p s.entriesByPath = some e ∧ e.id = i) ↔
    (∃ q, smGet PathEntry.id i s.entriesById = some q ∧ q.path = p)

/-- Precondition under which `Snapshot::insert_entry` preserves the agreement
invariant: the entry's target path is not occupied by a different id. -/
def Snapshot.insertEntryOk (s : Snapshot) (protoEntry : ProtoEntry)
    (alwaysIncludedPaths : EntryPath → Bool) : Prop :=
  ∀ old, smGet Entry.path (Entry.fromProto alwaysIncludedPaths protoEntry).path
      s.entriesByPath = some old → old.id = protoEntry.id

/-- Precondition under which `LocalSnapshot::insert_entry` preserves the
agreement invariant: the entry's id is not recorded under a different path. -/
def Snapshot.localInsertEntryOk (s : Snapshot) (entry : Entry) : Prop :=
  ∀ pe, smGet PathEntry.id entry.id s.entriesById = some pe → pe.path = entry.path

/-- A remote update whose updated entries carry pairwise-distinct ids and
pairwise-distinct paths — every update the delta builder emits has this
shape, since its updated entries are drawn from the two keyed indices. -/
def ProtoUpdateWorktree.entriesNodup (u : ProtoUpdateWorktree) : Prop :=
  (u.updatedEntries.map ProtoEntry.id).Nodup ∧ (u.updatedEntries.map ProtoEntry.path).Nodup

/-- Snapshots reachable from a fresh snapshot through the public mutation
operations, with the preconditions under which the two single-entry
insertions do not target a conflicting row and remote updates do not carry
duplicate keys. -/
inductive Reach : Snapshot → Prop where
  | new (rootName : String) (absPath : EntryPath) : Reach (Snapshot.new rootName absPath)
  | insert {s : Snapshot} (protoEntry : ProtoEntry) (inc : EntryPath → Bool) :
      Reach s → s.insertEntryOk protoEntry inc → Reach (s.insertEntry protoEntry inc).1
  | localInsert {s : Snapshot} (entry : Entry) :
      Reach s → s.localInsertEntryOk entry → Reach (s.localInsertEntry entry).1
  | delete {s : Snapshot} (entryId : Nat) : Reach s → Reach (s.deleteEntry entryId).1
  | applyUpdate {s : Snapshot} (u : ProtoUpdateWorktree) (inc : EntryPath → Bool) :
      Reach s → u.entriesNodup → Reach (s.applyRemoteUpdate u inc)

/-- The `simple_status` computation in the spec's words: "Untracked/Ignored →
Added; Unmerged → Conflict; Tracked → worktree status if non-unmodified else
index status". -/
def specSimpleStatus : FileStatus → GitStatus
  | .untracked => .added
  | .ignored => .added
  | .unmerged _ => .conflict
  | .tracked t =>
    if t.worktreeStatus ≠ .unmodified then trackedStatusToProto t.worktreeStatus
    else trackedStatusToProto t.indexStatus

/-- The `should_scan_directory` condition in the claim's words: note the
first disjunct is `(not external AND not ignored) OR always-included`,
whereas the source computes `not external AND (not ignored OR
always-included)`. -/
def claimShouldScanDirectory (st : BackgroundScannerState) (entry : Entry) : Prop :=
  ((entry.isExternal = false ∧ entry.isIgnored = false) ∨ entry.isAlwaysIncluded = true)
    ∨ pathFileName entry.path = some dotGit
    ∨ pathFileName entry.path = some localSettingsFolder
    ∨ entry.id ∈ st.scannedDirs
    ∨ (∃ p ∈ st.pathsToScan, underDir entry.path p = true)
    ∨ (∃ p ∈ st.pathPrefixesToScan, underDir p entry.path = true)

/-- The `should_scan_directory` condition as the source parenthesises it:
`not external AND (not ignored OR always-included)`, with the remaining
disjuncts unchanged. -/
def amendedShouldScanDirectory (st : BackgroundScannerState) (entry : Entry) : Prop :=
  (entry.isExternal = false ∧ (entry.isIgnored = false ∨ entry.isAlwaysIncluded = true))
    ∨ pathFileName entry.path = some dotGit
    ∨ pathFileName entry.path = some localSettingsFolder
    ∨ entry.id ∈ st.scannedDirs
    ∨ (∃ p ∈ st.pathsToScan, underDir entry.path p = true)
    ∨ (∃ p ∈ st.pathPrefixesToScan, underDir p entry.path = true)

/-! ### Concrete instances exercised by witnesses and counterexamples -/

/-- A baseline entry whose fields are all default. -/
def sampleEntry : Entry :=
  { id := 0, kind := .dir, path := [], inode := 0, mtime := none, canonicalPath := none
    isIgnored := false, isAlwaysIncluded := false, isExternal := false, isPrivate := false
    size := 0, isFifo := false }

/-- A baseline wire entry whose fields are all default. -/
def sampleProtoEntry : ProtoEntry :=
  { id := 0, isDir := true, path := [], inode := 0, mtime := none, isIgnored := false
    isExternal := false, isFifo := false, size := none, canonicalPath := none }

/-- A baseline wire update carrying nothing. -/
def sampleUpdate : ProtoUpdateWorktree :=
  { absPath := [pc "r"], rootName := "r", updatedEntries := [], removedEntries := []
    scanId := 1, isLastUpdate := false, updatedRepositories := [], removedRepositories := [] }

/-- An always-included matcher matching nothing. -/
def incNone : EntryPath → Bool := fun _ => false

/-- A scanner state over an empty snapshot with no pending work. -/
def sampleScannerState : BackgroundScannerState :=
  { snapshot := Snapshot.new "r" [pc "r"], scannedDirs := [], pathPrefixesToScan := []
    pathsToScan := [], removedEntries := [] }

/-- An external directory entry matched by the always-included patterns:
`should_scan_directory` rejects it, the claim's reading accepts it. -/
def externalAlwaysIncludedEntry : Entry :=
  { sampleEntry with path := [pc "x"], isExternal := true, isAlwaysIncluded := true }

/-- A snapshot whose `completed_scan_id` is already 5. -/
def completedFiveSnapshot : Snapshot :=
  { Snapshot.new "r" [pc "r"] with completedScanId := 5 }

/-- A non-last update carrying scan id 5. -/
def scanFiveUpdate : ProtoUpdateWorktree :=
  { sampleUpdate with scanId := 5, isLastUpdate := false }

/-- A scanner state holding one mtime-less entry at path `a` with inode 5 and
id 7. -/
def mtimelessScannerState : BackgroundScannerState :=
  { sampleScannerState with
    snapshot :=
      { sampleScannerState.snapshot with
        entriesByPath := [{ sampleEntry with id := 7, kind := .file, path := [pc "a"], inode := 5 }]
        entriesById := [{ id := 7, path := [pc "a"], isIgnored := false, scanId := 0 }] } }

/-- A freshly scanned mtime-less entry at the same path `a` and inode 5 as
the entry `mtimelessScannerState` holds, carrying the new id 9. -/
def mtimelessNewEntry : Entry :=
  { sampleEntry with id := 9, kind := .file, path := [pc "a"], inode := 5 }

/-- An entry at path `a` with inode 5, id 7 and mtime 3, as recorded for its
inode by `remove_path`. -/
def reuseRemovedEntry : Entry :=
  { sampleEntry with id := 7, kind := .file, path := [pc "a"], inode := 5, mtime := some 3 }

/-- A scanner state whose removed-entries map records `reuseRemovedEntry`
under inode 5. -/
def reuseScannerState : BackgroundScannerState :=
  { sampleScannerState with removedEntries := [(5, reuseRemovedEntry)] }

/-- A freshly scanned entry at path `b` with the removed entry's inode and
mtime: the rename case. -/
def reuseNewEntry : Entry :=
  { sampleEntry with id := 9, kind := .file, path := [pc "b"], inode := 5, mtime := some 3 }

/-- A remote worktree that has observed scan id 3, connected, with awaiters
for scan ids 4 and 6 pending. -/
def c8State : RemoteWorktreeState :=
  { completedScanId := 3, disconnected := false, snapshotSubscriptions := [4, 6] }

/-- A repository on branch `main` with an untracked `a` and an ignored `c`. -/
def c2OldRepo : RepositoryEntry :=
  { statusesByPath := [⟨[pc "a"], .untracked⟩, ⟨[pc "c"], .ignored⟩]
    workDirectoryId := 1
    workDirectoryPath := []
    locationInRepo := none
    branch := some "main" }

/-- The same repository later: on branch `dev`, `a` now ignored, `b`
untracked, `c` gone. -/
def c2NewRepo : RepositoryEntry :=
  { statusesByPath := [⟨[pc "a"], .ignored⟩, ⟨[pc "b"], .untracked⟩]
    workDirectoryId := 1
    workDirectoryPath := []
    locationInRepo := none
    branch := some "dev" }

/-- Entry `a` of a three-entry snapshot. -/
def c10EntryA : Entry := { sampleEntry with id := 1, path := [pc "a"] }

/-- Entry `a/b`, inside the `a` subtree. -/
def c10EntryAB : Entry := { sampleEntry with id := 2, path := [pc "a", pc "b"] }

/-- Entry `c`, outside the `a` subtree. -/
def c10EntryC : Entry := { sampleEntry with id := 3, path := [pc "c"] }

/-- A snapshot holding `a`, `a/b` and `c` in both indices: deleting `a` must
drop the whole `a` subtree from both. -/
def c10Snap : Snapshot :=
  { Snapshot.new "root" [] with
    entriesByPath := [c10EntryA, c10EntryAB, c10EntryC]
    entriesById :=
      [⟨1, [pc "a"], false, 0⟩, ⟨2, [pc "a", pc "b"], false, 0⟩, ⟨3, [pc "c"], false, 0⟩] }

/-- Two `Snapshot::insert_entry` calls at the same path with different ids:
the second replaces the first in the path tree but leaves its identity row
behind. -/
def c1Snap : Snapshot :=
  (((Snapshot.new "root" []).insertEntry
      { sampleProtoEntry with id := 1, path := [pc "a"] } incNone).1.insertEntry
      { sampleProtoEntry with id := 2, path := [pc "a"] } incNone).1

/-! ### Lemmas about the sorted-map model -/

section SortedMapLemmas

variable {α : Type} {κ : Type} [LinearOrder κ]

theorem smGet_eq_some {key : α → κ} {k : κ} {m : List α} {x : α}
    (h : smGet key k m = some x) : x ∈ m ∧ key x = k := by
  induction m with
  | nil => simp [smGet] at h
  | cons y ys ih =>
    by_cases hy : key y = k
    · simp [smGet, hy] at h
      subst h
      exact ⟨List.mem_cons_self _ _, hy⟩
    · simp [smGet, hy] at h
      obtain ⟨hmem, hkey⟩ := ih h
      exact ⟨List.mem_cons_of_mem _ hmem, hkey⟩

theorem smGet_eq_none {key : α → κ} {k : κ} {m : List α} :
    smGet key k m = none ↔ ∀ x ∈ m, key x ≠ k := by
  induction m with
  | nil => simp [smGet]
  | cons y ys ih =>
    by_cases hy : key y = k
    · simp [smGet, hy]
    · simp [smGet, hy, ih]

theorem smGet_of_mem {key : α → κ} {m : List α} {x : α}
    (hwf : smWF key m) (hx : x ∈ m) : smGet key (key x) m = some x := by
  induction m with
  | nil => simp at hx
  | cons y ys ih =>
    rcases List.mem_cons.mp hx with rfl | hx
    · simp [smGet]
    · have hlt : key y < key x := (List.pairwise_cons.mp hwf).1 x hx
      have hne : key y ≠ key x := ne_of_lt hlt
      simp [smGet, hne]
      exact ih (List.pairwise_cons.mp hwf).2 hx

theorem smGet_smInsert {key : α → κ} (x : α) (k : κ) (m : List α) :
    smGet key k (smInsert key x m) =
      if key x = k then some x else smGet key k m := by
  induction m with
  | nil => by_cases h : key x = k <;> simp [smInsert, smGet, h]
  | cons y ys ih =>
    simp only [smInsert]
    by_cases hlt : key x < key y
    · rw [if_pos hlt]
      simp [smGet]
    · rw [if_neg hlt]
      by_cases heq : key x = key y
      · rw [if_pos heq]
        by_cases h : key x = k
        · simp [smGet, h]
        · have hyk : key y ≠ k := fun hc => h (heq.trans hc)
          simp [smGet, h, hyk]
      · rw [if_neg heq]
        have hgt : key y < key x := lt_of_le_of_ne (not_lt.mp hlt) (Ne.symm heq)
        by_cases hyk : key y = k
        · have hxk : key x ≠ k := fun hc => absurd (hc.trans hyk.symm) (ne_of_gt hgt)
          simp [smGet, hyk, hxk]
        · simp [smGet, hyk, ih]

theorem smGet_smRemove_ne {key : α → κ} {k k' : κ} (hne : k' ≠ k) (m : List α) :
    smGet key k' (smRemove key k m) = smGet key k' m := by
  induction m with
  | nil => simp [smRemove]
  | cons y ys ih =>
    simp only [smRemove]
    by_cases hy : key y = k
    · rw [if_pos hy]
      have hyk' : key y ≠ k' := fun hc => hne (hc.symm.trans hy)
      rw [smGet, if_neg hyk']
    · rw [if_neg hy]
      by_cases hy' : key y = k'
      · rw [smGet, if_pos hy', smGet, if_pos hy']
      · rw [smGet, if_neg hy', smGet, if_neg hy', ih]

theorem smRemove_sublist (key : α → κ) (k : κ) (m : List α) :
    (smRemove key k m).Sublist m := by
  induction m with
  | nil => simp [smRemove]
  | cons y ys ih =>
    by_cases hy : key y = k
    · simp [smRemove, hy]
    · simpa [smRemove, hy] using ih.cons₂ y

theorem smGet_smRemove_self {key : α → κ} {k : κ} {m : List α}
    (hwf : smWF key m) : smGet key k (smRemove key k m) = none := by
  induction m with
  | nil => simp [smRemove, smGet]
  | cons y ys ih =>
    simp only [smRemove]
    by_cases hy : key y = k
    · rw [if_pos hy]
      rw [smGet_eq_none]
      intro x hx
      have := (List.pairwise_cons.mp hwf).1 x hx
      rw [hy] at this
      exact ne_of_gt this
    · rw [if_neg hy, smGet, if_neg hy]
      exact ih (List.pairwise_cons.mp hwf).2

theorem smWF_smRemove {key : α → κ} {k : κ} {m : List α} (hwf : smWF key m) :
    smWF key (smRemove key k m) :=
  List.Pairwise.sublist (smRemove_sublist key k m) hwf

theorem smInsert_mem_cases {key : α → κ} {x z : α} {m : List α}
    (hz : z ∈ smInsert key x m) : z = x ∨ z ∈ m := by
  induction m with
  | nil => simpa [smInsert] using hz
  | cons y ys ih =>
    simp only [smInsert] at hz
    by_cases hlt : key x < key y
    · rw [if_pos hlt] at hz
      simpa using hz
    · rw [if_neg hlt] at hz
      by_cases heq : key x = key y
      · rw [if_pos heq] at hz
        rcases List.mem_cons.mp hz with rfl | hz
        · exact Or.inl rfl
        · exact Or.inr (List.mem_cons_of_mem _ hz)
      · rw [if_neg heq] at hz
        rcases List.mem_cons.mp hz with rfl | hz
        · exact Or.inr (List.mem_cons_self _ _)
        · rcases ih hz with rfl | hz
          · exact Or.inl rfl
          · exact Or.inr (List.mem_cons_of_mem _ hz)

theorem smWF_smInsert {key : α → κ} {x : α} {m : List α} (hwf : smWF key m) :
    smWF key (smInsert key x m) := by
  induction m with
  | nil => simp [smInsert, smWF]
  | cons y ys ih =>
    obtain ⟨hy, hys⟩ := List.pairwise_cons.mp hwf
    simp only [smWF, smInsert]
    by_cases hlt : key x < key y
    · rw [if_pos hlt]
      refine List.pairwise_cons.mpr ⟨?_, hwf⟩
      intro z hz
      rcases List.mem_cons.mp hz with rfl | hz
      · exact hlt
      · exact lt_trans hlt (hy z hz)
    · rw [if_neg hlt]
      by_cases heq : key x = key y
      · rw [if_pos heq]
        refine List.pairwise_cons.mpr ⟨?_, hys⟩
        intro z hz
        exact heq ▸ hy z hz
      · rw [if_neg heq]
        have hgt : key y < key x := lt_of_le_of_ne (not_lt.mp hlt) (Ne.symm heq)
        refine List.pairwise_cons.mpr ⟨?_, ih hys⟩
        intro z hz
        rcases smInsert_mem_cases hz with rfl | hz'
        · exact hgt
        · exact hy z hz'

theorem smGet_filter_key {key : α → κ} (q : κ → Bool) (k : κ) (m : List α) :
    smGet key k (m.filter fun e => q (key e)) =
      if q k then smGet key k m else none := by
  induction m with
  | nil => simp [smGet]
  | cons y ys ih =>
    by_cases hy : key y = k
    · subst hy
      by_cases hq : q (key y)
      · simp [List.filter_cons, hq, smGet]
      · simp [List.filter_cons, hq, smGet, ih]
    · by_cases hq : q (key y)
      · simp only [List.filter_cons, hq, if_pos, smGet, if_neg hy, ih]
      · simp only [List.filter_cons, hq, Bool.false_eq_true, if_false, ih]
        rw [smGet, if_neg hy]

theorem smGet_foldl_smInsert {key : α → κ} (k : κ) (xs : List α) (m : List α) :
    smGet key k (xs.foldl (fun acc x => smInsert key x acc) m) =
      match xs.reverse.find? (fun x => decide (key x = k)) with
      | some x => some x
      | none => smGet key k m := by
  induction xs generalizing m with
  | nil => simp
  | cons x xs ih =>
    rw [List.foldl_cons, ih, List.reverse_cons, List.find?_append]
    cases hfind : xs.reverse.find? (fun x => decide (key x = k)) with
    | some y => simp [hfind]
    | none =>
      simp only [hfind, Option.none_orElse]
      rw [smGet_smInsert]
      by_cases hk : key x = k
      · simp [List.find?, hk]
      · simp [List.find?, hk]

theorem smWF_foldl_smInsert {key : α → κ} {xs : List α} {m : List α}
    (hwf : smWF key m) :
    smWF key (xs.foldl (fun acc x => smInsert key x acc) m) := by
  induction xs generalizing m with
  | nil => exact hwf
  | cons x xs ih => exact ih (smWF_smInsert hwf)

theorem smWF_filter {key : α → κ} {m : List α} (p : α → Bool) (hwf : smWF key m) :
    smWF key (m.filter p) :=
  List.Pairwise.filter p hwf

theorem smGet_smEdit {key : α → κ} (k : κ) (m : List α)
    (edits : List (MapEdit α κ)) :
    smGet key k (smEdit key m edits) =
      match (editInserts edits).reverse.find? (fun x => decide (key x = k)) with
      | some x => some x
      | none =>
        if (editRemovedKeys edits).contains k then none else smGet key k m := by
  rw [smEdit, smGet_foldl_smInsert]
  cases hfind : (editInserts edits).reverse.find? (fun x => decide (key x = k)) with
  | some x => rfl
  | none =>
    show smGet key k (m.filter fun e => !((editRemovedKeys edits).contains (key e))) = _
    have := @smGet_filter_key α κ _ key (fun j => !((editRemovedKeys edits).contains j)) k m
    simp only [this]
    by_cases hc : (editRemovedKeys edits).contains k
    · simp [hc]
    · simp [hc]

theorem smWF_smEdit {key : α → κ} {m : List α}
    (edits : List (MapEdit α κ)) (hwf : smWF key m) :
    smWF key (smEdit key m edits) :=
  smWF_foldl_smInsert (smWF_filter _ hwf)


theorem smWF_key_unique {key : α → κ} {l : List α} (hwf : smWF key l) {a b : α}
    (ha : a ∈ l) (hb : b ∈ l) (hk : key a = key b) : a = b := by
  induction l with
  | nil => simp at ha
  | cons y ys ih =>
    obtain ⟨hy, hys⟩ := List.pairwise_cons.mp hwf
    rcases List.mem_cons.mp ha with ha' | ha'
    · rcases List.mem_cons.mp hb with hb' | hb'
      · rw [ha', hb']
      · exfalso
        rw [ha'] at hk
        exact (ne_of_lt (hy b hb')) hk
    · rcases List.mem_cons.mp hb with hb' | hb'
      · exfalso
        rw [hb'] at hk
        exact (ne_of_lt (hy a ha')) hk.symm
      · exact ih hys ha' hb'

theorem reverse_find?_eq_smGet {key : α → κ} {l : List α} (hwf : smWF key l) (k : κ) :
    l.reverse.find? (fun x => decide (key x = k)) = smGet key k l := by
  induction l with
  | nil => rfl
  | cons y ys ih =>
    obtain ⟨hy, hys⟩ := List.pairwise_cons.mp hwf
    rw [List.reverse_cons, List.find?_append]
    by_cases hk : key y = k
    · have hnone : ys.reverse.find? (fun x => decide (key x = k)) = none := by
        rw [List.find?_eq_none]
        intro x hx
        have : key y < key x := hy x (List.mem_reverse.mp hx)
        simp [hk ▸ ne_of_gt this]
      rw [hnone]
      simp [List.find?, hk, smGet]
    · have hone : List.find? (fun x => decide (key x = k)) [y] = none := by
        simp [List.find?, hk]
      rw [hone, ih hys]
      have : smGet key k (y :: ys) = smGet key k ys := by simp [smGet, hk]
      rw [this]
      cases smGet key k ys <;> rfl

theorem smGet_ext {key : α → κ} {l₁ l₂ : List α} (h1 : smWF key l₁) (h2 : smWF key l₂)
    (h : ∀ k, smGet key k l₁ = smGet key k l₂) : l₁ = l₂ := by
  induction l₁ generalizing l₂ with
  | nil =>
    cases l₂ with
    | nil => rfl
    | cons y ys => exact absurd (h (key y)) (by simp [smGet])
  | cons x xs ih =>
    obtain ⟨hx, hxs⟩ := List.pairwise_cons.mp h1
    cases l₂ with
    | nil => exact absurd (h (key x)) (by simp [smGet])
    | cons y ys =>
      obtain ⟨hy, hys⟩ := List.pairwise_cons.mp h2
      by_cases hk : key y = key x
      · have hxy : y = x := by
          have hh := h (key x)
          rw [show smGet key (key x) (x :: xs) = some x from by simp [smGet]] at hh
          rw [show smGet key (key x) (y :: ys) = some y from by simp [smGet, hk]] at hh
          exact (Option.some.inj hh).symm
        have htail : ∀ k, smGet key k xs = smGet key k ys := by
          intro k
          by_cases hxk : key x = k
          · rw [smGet_eq_none.mpr fun a ha => hxk ▸ ne_of_gt (hx a ha),
              smGet_eq_none.mpr fun a ha => hxk ▸ ne_of_gt (hk ▸ hy a ha)]
          · have hh := h k
            rw [show smGet key k (x :: xs) = smGet key k xs from by simp [smGet, hxk]] at hh
            have hyk : ¬ key y = k := fun hc => hxk (hk ▸ hc)
            rw [show smGet key k (y :: ys) = smGet key k ys from by simp [smGet, hyk]] at hh
            exact hh
        rw [hxy, ih hxs hys htail]
      · rcases lt_or_gt_of_ne hk with hlt | hgt
        · exfalso
          have hh := h (key y)
          have e1 : smGet key (key y) (x :: xs) = none := by
            rw [smGet_eq_none]
            intro a ha
            rcases List.mem_cons.mp ha with rfl | ha'
            · exact fun hc => hk hc.symm
            · exact ne_of_gt (lt_trans hlt (hx a ha'))
          have e2 : smGet key (key y) (y :: ys) = some y := by simp [smGet]
          rw [e1, e2] at hh
          exact Option.noConfusion hh
        · exfalso
          have hh := h (key x)
          have e1 : smGet key (key x) (x :: xs) = some x := by simp [smGet]
          have e2 : smGet key (key x) (y :: ys) = none := by
            rw [smGet_eq_none]
            intro a ha
            rcases List.mem_cons.mp ha with rfl | ha'
            · exact hk
            · exact ne_of_gt (lt_trans hgt (hy a ha'))
          rw [e1, e2] at hh
          exact Option.noConfusion hh

/-- The lookup behaviour of a batch of edits, stated over the inserted items
and removed keys: an inserted item with the key wins; otherwise a removed key
yields nothing; otherwise the base map answers. -/
theorem smGet_smEdit_lookup {key : α → κ} (k : κ) (m : List α)
    (edits : List (MapEdit α κ)) (hwfIns : smWF key (editInserts edits)) :
    (∃ x, smGet key k (editInserts edits) = some x ∧
        smGet key k (smEdit key m edits) = some x) ∨
      (smGet key k (editInserts edits) = none ∧ k ∈ editRemovedKeys edits ∧
        smGet key k (smEdit key m edits) = none) ∨
      (smGet key k (editInserts edits) = none ∧ k ∉ editRemovedKeys edits ∧
        smGet key k (smEdit key m edits) = smGet key k m) := by
  have hbase := @smGet_smEdit α κ _ key k m edits
  rw [reverse_find?_eq_smGet hwfIns k] at hbase
  cases hu : smGet key k (editInserts edits) with
  | some x =>
    rw [hu] at hbase
    exact Or.inl ⟨x, rfl, hbase⟩
  | none =>
    rw [hu] at hbase
    by_cases hr : k ∈ editRemovedKeys edits
    · have hc : (editRemovedKeys edits).contains k = true := List.elem_iff.mpr hr
      rw [if_pos hc] at hbase
      exact Or.inr (Or.inl ⟨rfl, hr, hbase⟩)
    · have hc : ¬ ((editRemovedKeys edits).contains k = true) := fun hc =>
        hr (List.elem_iff.mp hc)
      rw [if_neg hc] at hbase
      exact Or.inr (Or.inr ⟨rfl, hr, hbase⟩)

/-- On a list where the predicate is downward closed (pairwise: once an item
fails, everything after it fails), the initial run is the whole set of hits. -/
theorem takeWhile_eq_filter_of_closed {P : α → Bool} {l : List α}
    (hcl : List.Pairwise (fun a b => P b = true → P a = true) l) :
    l.takeWhile P = l.filter P := by
  induction l with
  | nil => rfl
  | cons y ys ih =>
    rcases List.pairwise_cons.mp hcl with ⟨hy, hys⟩
    cases hP : P y with
    | true =>
      rw [List.takeWhile_cons_of_pos hP, List.filter_cons_of_pos hP, ih hys]
    | false =>
      rw [List.takeWhile_cons_of_neg (by simp [hP]), List.filter_cons_of_neg (by simp [hP])]
      refine (List.filter_eq_nil_iff.mpr ?_).symm
      intro b hb hPb
      rw [hy b hb hPb] at hP
      exact Bool.noConfusion hP

theorem dropWhile_eq_filter_not_of_closed {P : α → Bool} {l : List α}
    (hcl : List.Pairwise (fun a b => P b = true → P a = true) l) :
    l.dropWhile P = l.filter fun a => !(P a) := by
  induction l with
  | nil => rfl
  | cons y ys ih =>
    rcases List.pairwise_cons.mp hcl with ⟨hy, hys⟩
    cases hP : P y with
    | true =>
      rw [List.dropWhile_cons_of_pos hP, List.filter_cons_of_neg (by simp [hP]), ih hys]
    | false =>
      rw [List.dropWhile_cons_of_neg (by simp [hP]), List.filter_cons_of_pos (by simp [hP])]
      refine congrArg _ (List.filter_eq_self.mpr ?_).symm
      intro b hb
      cases hPb : P b with
      | true =>
        rw [hy b hb hPb] at hP
        exact Bool.noConfusion hP
      | false => rfl

theorem drop_takeWhile_length (P : α → Bool) (l : List α) :
    l.drop (l.takeWhile P).length = l.dropWhile P := by
  have h : (l.takeWhile P ++ l.dropWhile P).drop (l.takeWhile P).length = l.dropWhile P :=
    List.drop_left _ _
  rw [List.takeWhile_append_dropWhile] at h
  exact h

/-- Under well-formedness, removing a key from the sorted map filters out the
row with that key. -/
theorem smRemove_eq_filter {key : α → κ} {m : List α} (hwf : smWF key m) (k : κ) :
    smRemove key k m = m.filter fun a => !(decide (key a = k)) := by
  induction m with
  | nil => rfl
  | cons y ys ih =>
    rcases List.pairwise_cons.mp hwf with ⟨hy, hys⟩
    by_cases h : key y = k
    · rw [smRemove, if_pos h, List.filter_cons_of_neg (by simp [h])]
      refine (List.filter_eq_self.mpr ?_).symm
      intro b hb
      simp only [Bool.not_eq_true', decide_eq_false_iff_not]
      exact fun hc => absurd (h ▸ hc ▸ hy b hb) (lt_irrefl _)
    · rw [smRemove, if_neg h, List.filter_cons_of_pos (by simp [h]), ih hys]

/-- Folding `smRemove` over a batch of keys filters out every row whose key is
in the batch. -/
theorem foldl_smRemove_eq_filter {key : α → κ} (ks : List κ) :
    ∀ {m : List α}, smWF key m →
      ks.foldl (fun acc k => smRemove key k acc) m
        = m.filter fun a => decide (key a ∉ ks) := by
  induction ks with
  | nil =>
    intro m _
    rw [List.foldl_nil]
    refine (List.filter_eq_self.mpr ?_).symm
    intro b _
    simp
  | cons k ks ih =>
    intro m hwf
    rw [List.foldl_cons, ih (smWF_smRemove hwf), smRemove_eq_filter hwf k,
      List.filter_filter]
    refine List.filter_congr ?_
    intro b _
    by_cases h1 : key b = k <;> by_cases h2 : key b ∈ ks <;>
      simp [h1, h2, List.mem_cons]

/-- Under well-formedness, looking a key up in a filtered map answers the
base lookup gated by the predicate. -/
theorem smGet_filter {key : α → κ} (P : α → Bool) (k : κ) {m : List α}
    (hwf : smWF key m) :
    smGet key k (m.filter P)
      = (smGet key k m).bind fun x => if P x then some x else none := by
  induction m with
  | nil => rfl
  | cons y ys ih =>
    obtain ⟨hy, hys⟩ := List.pairwise_cons.mp hwf
    by_cases hk : key y = k
    · cases hP : P y with
      | true =>
        rw [List.filter_cons_of_pos hP]
        simp [smGet, hk, hP]
      | false =>
        have hln : smGet key k (ys.filter P) = none := by
          rw [smGet_eq_none]
          intro x hx
          have hxy : key y < key x := hy x (List.mem_filter.mp hx).1
          rw [← hk]
          exact ne_of_gt hxy
        rw [List.filter_cons_of_neg (by simp [hP]), hln]
        simp [smGet, hk, hP]
    · cases hP : P y with
      | true =>
        rw [List.filter_cons_of_pos hP]
        simp only [smGet, if_neg hk]
        exact ih hys
      | false =>
        rw [List.filter_cons_of_neg (by simp [hP])]
        simp only [smGet, if_neg hk]
        exact ih hys

theorem reverse_find?_eq_none_iff {key : α → κ} {E : List α} {k : κ} :
    (E.reverse.find? fun z => decide (key z = k)) = none ↔ ∀ z ∈ E, key z ≠ k := by
  rw [List.find?_eq_none]
  constructor
  · intro h z hz
    have := h z (List.mem_reverse.mpr hz)
    simpa using this
  · intro h z hz
    simpa using h z (List.mem_reverse.mp hz)

/-- With pairwise-distinct keys, searching the reversed insert list for a
member's key finds exactly that member. -/
theorem reverse_find?_eq_some_of_nodup {key : α → κ} {E : List α}
    (hnd : (E.map key).Nodup) {x : α} (hx : x ∈ E) :
    (E.reverse.find? fun z => decide (key z = key x)) = some x := by
  have hsome : ∃ y, E.reverse.find? (fun z => decide (key z = key x)) = some y := by
    have hmem : x ∈ E.reverse := List.mem_reverse.mpr hx
    have hs : (E.reverse.find? fun z => decide (key z = key x)).isSome :=
      List.find?_isSome.mpr ⟨x, hmem, decide_eq_true rfl⟩
    exact Option.isSome_iff_exists.mp hs
  obtain ⟨y, hy⟩ := hsome
  have hyE : y ∈ E := List.mem_reverse.mp (List.mem_of_find?_eq_some hy)
  have hyk' := List.find?_some hy
  have hyk : key y = key x := of_decide_eq_true hyk'
  have hyx : y = x := List.inj_on_of_nodup_map hnd hyE hx hyk
  rw [hy, hyx]

/-- The lookup behaviour of a batch of edits, as a case split: some inserted
item with the key answers the lookup; otherwise a removed key yields nothing;
otherwise the base map answers. -/
theorem smEdit_lookup_cases (key : α → κ) (k : κ) (m : List α)
    (edits : List (MapEdit α κ)) :
    (∃ x, x ∈ editInserts edits ∧ key x = k ∧
        smGet key k (smEdit key m edits) = some x) ∨
      ((∀ x ∈ editInserts edits, key x ≠ k) ∧ k ∈ editRemovedKeys edits ∧
        smGet key k (smEdit key m edits) = none) ∨
      ((∀ x ∈ editInserts edits, key x ≠ k) ∧ k ∉ editRemovedKeys edits ∧
        smGet key k (smEdit key m edits) = smGet key k m) := by
  have hbase := @smGet_smEdit α κ _ key k m edits
  cases hfind : (editInserts edits).reverse.find? (fun x => decide (key x = k)) with
  | some x =>
    rw [hfind] at hbase
    have hxk := List.find?_some hfind
    exact Or.inl ⟨x, List.mem_reverse.mp (List.mem_of_find?_eq_some hfind),
      of_decide_eq_true hxk, hbase⟩
  | none =>
    rw [hfind] at hbase
    have hno : ∀ x ∈ editInserts edits, key x ≠ k :=
      reverse_find?_eq_none_iff.mp hfind
    by_cases hr : k ∈ editRemovedKeys edits
    · have hc : (editRemovedKeys edits).contains k = true := List.elem_iff.mpr hr
      rw [if_pos hc] at hbase
      exact Or.inr (Or.inl ⟨hno, hr, hbase⟩)
    · have hc : ¬ ((editRemovedKeys edits).contains k = true) := fun hc =>
        hr (List.elem_iff.mp hc)
      rw [if_neg hc] at hbase
      exact Or.inr (Or.inr ⟨hno, hr, hbase⟩)

end SortedMapLemmas

theorem editRemovedKeys_append {α κ : Type} (a b : List (MapEdit α κ)) :
    editRemovedKeys (a ++ b) = editRemovedKeys a ++ editRemovedKeys b := by
  induction a with
  | nil => simp [editRemovedKeys]
  | cons e es ih => cases e <;> simp [editRemovedKeys, ih]

theorem editInserts_append {α κ : Type} (a b : List (MapEdit α κ)) :
    editInserts (a ++ b) = editInserts a ++ editInserts b := by
  induction a with
  | nil => simp [editInserts]
  | cons e es ih => cases e <;> simp [editInserts, ih]

/-! ### C9 -/

/-- C9: for every `StatusEntry`, the `simple_status` field of its wire
encoding is computed as: Untracked or Ignored statuses encode as Added;
Unmerged statuses encode as Conflict; Tracked statuses encode the worktree
status when it is not Unmodified and the index status otherwise. -/
theorem c9_simple_status (e : StatusEntry) :
    e.toProto.simpleStatus = specSimpleStatus e.status := by
  obtain ⟨p, st⟩ := e
  cases st with
  | untracked => rfl
  | ignored => rfl
  | unmerged u => rfl
  | tracked t =>
    obtain ⟨i, w⟩ := t
    cases w <;> rfl

/-! ### C5 -/

/-- C5 counterexample: for an external directory entry matched by the
always-included patterns (and triggering none of the other conditions),
`should_scan_directory` returns false although the claim's condition — which
reads the first disjunct as `(not external AND not ignored) OR
always-included` — holds. -/
theorem c5_counterexample :
    ¬ (sampleScannerState.shouldScanDirectory externalAlwaysIncludedEntry = true ↔
        claimShouldScanDirectory sampleScannerState externalAlwaysIncludedEntry) := by
  intro h
  have hclaim : claimShouldScanDirectory sampleScannerState externalAlwaysIncludedEntry :=
    Or.inl (Or.inr rfl)
  exact absurd (h.mpr hclaim) (by decide)

/-- C5 (amended): `should_scan_directory` returns true iff one of the listed
conditions holds, the first being `not external AND (not ignored OR
always-included)` as the source parenthesises it. -/
theorem c5_should_scan_directory (st : BackgroundScannerState) (entry : Entry) :
    st.shouldScanDirectory entry = true ↔ amendedShouldScanDirectory st entry := by
  simp only [BackgroundScannerState.shouldScanDirectory, amendedShouldScanDirectory,
    Bool.or_eq_true, Bool.and_eq_true, Bool.not_eq_true', beq_iff_eq,
    List.contains, List.elem_iff, List.any_eq_true]
  constructor
  · rintro (((((h | h) | h) | h) | h) | h)
    · exact Or.inl ⟨h.1, h.2.elim (fun h2 => Or.inl h2) (fun h2 => Or.inr h2)⟩
    · exact .inr (.inl h)
    · exact .inr (.inr (.inl h))
    · exact .inr (.inr (.inr (.inl h)))
    · exact .inr (.inr (.inr (.inr (.inl h))))
    · exact .inr (.inr (.inr (.inr (.inr h))))
  · rintro (h | h | h | h | h | h)
    · exact Or.inl (Or.inl (Or.inl (Or.inl (Or.inl
        ⟨h.1, h.2.elim (fun h2 => Or.inl h2) (fun h2 => Or.inr h2)⟩))))
    · exact Or.inl (Or.inl (Or.inl (Or.inl (Or.inr h))))
    · exact Or.inl (Or.inl (Or.inl (Or.inr h)))
    · exact Or.inl (Or.inl (Or.inr h))
    · exact Or.inl (Or.inr h)
    · exact Or.inr h

/-! ### C4 -/

/-- C4 counterexample: an entry at path `a` (inode 5, id 7, no mtime) is
removed during the batch by `remove_path`; a new entry with the same inode
and the same path but no mtime is then inserted.  The claim promises id 7 is
reused; the code only considers reuse for entries carrying an mtime, so the
inserted entry keeps its fresh id 9. -/
theorem c4_counterexample :
    ((mtimelessScannerState.removePath [pc "a"]).insertEntry mtimelessNewEntry).2.id = 9 ∧
      (hmGet (mtimelessScannerState.removePath [pc "a"]).removedEntries 5).map Entry.id
        = some 7 ∧
      mtimelessNewEntry.inode = 5 ∧
      (hmGet (mtimelessScannerState.removePath [pc "a"]).removedEntries 5).map Entry.path
        = some [pc "a"] ∧
      mtimelessNewEntry.path = [pc "a"] := by
  refine ⟨?_, ?_, rfl, ?_, rfl⟩ <;> decide

/-- C4 (amended): when the per-scan removed-entries map records entry `R` for
the inserted entry's inode — `remove_path` records there the entries removed
during the current batch — and the inserted entry carries an mtime, and `R`'s
mtime equals it or `R`'s path equals the inserted path, then
`reuse_entry_id` gives the inserted entry `R`'s id. -/
theorem c4_rename_reuse (st : BackgroundScannerState) (q removed : Entry) (m : Nat)
    (h1 : hmGet st.removedEntries q.inode = some removed)
    (h2 : q.mtime = some m)
    (h3 : removed.mtime = some m ∨ removed.path = q.path) :
    ((st.reuseEntryId q).2).id = removed.id := by
  rcases h3 with h | h
  · simp [BackgroundScannerState.reuseEntryId, h2, h1, h]
  · simp [BackgroundScannerState.reuseEntryId, h2, h1, h]

/-- C4 witness: the amended reuse theorem applied to the rename of `a` to `b`
keeping inode 5 and mtime 3: the new entry takes over id 7. -/
theorem c4_rename_reuse_witness :
    ((reuseScannerState.reuseEntryId reuseNewEntry).2).id = reuseRemovedEntry.id :=
  c4_rename_reuse reuseScannerState reuseNewEntry reuseRemovedEntry 3
    (by decide) (by decide) (Or.inl (by decide))

/-! ### C3 -/

/-- `Snapshot::apply_remote_update`'s repository loop body touches only the
repository index. -/
theorem applyRepositoryUpdate_fields (s : Snapshot) (r : ProtoRepositoryEntry) :
    (s.applyRepositoryUpdate r).scanId = s.scanId ∧
      (s.applyRepositoryUpdate r).completedScanId = s.completedScanId ∧
      (s.applyRepositoryUpdate r).entriesByPath = s.entriesByPath ∧
      (s.applyRepositoryUpdate r).entriesById = s.entriesById := by
  unfold Snapshot.applyRepositoryUpdate
  refine ⟨?_, ?_, ?_, ?_⟩ <;> (split <;> (try split) <;> rfl)

/-- Folding the repository loop body over any list of wire repositories
touches only the repository index. -/
theorem foldl_applyRepositoryUpdate_fields (l : List ProtoRepositoryEntry) (s : Snapshot) :
    (l.foldl Snapshot.applyRepositoryUpdate s).scanId = s.scanId ∧
      (l.foldl Snapshot.applyRepositoryUpdate s).completedScanId = s.completedScanId ∧
      (l.foldl Snapshot.applyRepositoryUpdate s).entriesByPath = s.entriesByPath ∧
      (l.foldl Snapshot.applyRepositoryUpdate s).entriesById = s.entriesById := by
  induction l generalizing s with
  | nil => exact ⟨rfl, rfl, rfl, rfl⟩
  | cons r rs ih =>
    simp only [List.foldl_cons]
    obtain ⟨h1, h2, h3, h4⟩ := ih (s.applyRepositoryUpdate r)
    obtain ⟨g1, g2, g3, g4⟩ := applyRepositoryUpdate_fields s r
    exact ⟨h1.trans g1, h2.trans g2, h3.trans g3, h4.trans g4⟩

/-- The whole repository half of `apply_remote_update` touches only the
repository index. -/
theorem applyRemoteRepositoryUpdates_fields (s : Snapshot) (u : ProtoUpdateWorktree) :
    (applyRemoteRepositoryUpdates s u).scanId = s.scanId ∧
      (applyRemoteRepositoryUpdates s u).completedScanId = s.completedScanId ∧
      (applyRemoteRepositoryUpdates s u).entriesByPath = s.entriesByPath ∧
      (applyRemoteRepositoryUpdates s u).entriesById = s.entriesById := by
  unfold applyRemoteRepositoryUpdates
  exact foldl_applyRepositoryUpdate_fields u.updatedRepositories _

/-- C3 counterexample: applying a non-last update whose scan id equals the
snapshot's current `completed_scan_id` leaves `completed_scan_id` equal to
the update's scan id although `is_last_update` is false, refuting the
biconditional reading of the claim. -/
theorem c3_counterexample :
    ¬ (((completedFiveSnapshot.applyRemoteUpdate scanFiveUpdate incNone).completedScanId
          = scanFiveUpdate.scanId) ↔ scanFiveUpdate.isLastUpdate = true) := by
  decide

/-- C3 (amended): `apply_remote_update` sets `scan_id` to the update's scan
id, sets `completed_scan_id` to the update's scan id when `is_last_update`,
and leaves `completed_scan_id` unchanged otherwise (so the two agree iff
`is_last_update` whenever the prior `completed_scan_id` differs from the
update's scan id). -/
theorem c3_scan_ids (s : Snapshot) (u : ProtoUpdateWorktree) (inc : EntryPath → Bool) :
    (s.applyRemoteUpdate u inc).scanId = u.scanId ∧
      (u.isLastUpdate = true → (s.applyRemoteUpdate u inc).completedScanId = u.scanId) ∧
      (u.isLastUpdate = false →
        (s.applyRemoteUpdate u inc).completedScanId = s.completedScanId) := by
  unfold Snapshot.applyRemoteUpdate
  refine ⟨rfl, ?_, ?_⟩
  · intro h
    simp [h]
  · intro h
    simp only [h, Bool.false_eq_true, if_false]
    exact (applyRemoteRepositoryUpdates_fields _ _).2.1

/-- C3 witness: the amended scan-id theorem applied to a non-last empty
update over a snapshot with `completed_scan_id = 5`. -/
theorem c3_scan_ids_witness :
    (completedFiveSnapshot.applyRemoteUpdate sampleUpdate incNone).scanId
        = sampleUpdate.scanId ∧
      (completedFiveSnapshot.applyRemoteUpdate sampleUpdate incNone).completedScanId
        = completedFiveSnapshot.completedScanId := by
  have h := c3_scan_ids completedFiveSnapshot sampleUpdate incNone
  exact ⟨h.1, h.2.2 rfl⟩

/-! ### C7 -/

/-- A path all of whose components are normal and whose file name is empty is
the empty path. -/
theorem componentFileName_none_eq_nil {p : List PathComponent}
    (hall : ∀ c ∈ p, c.isNormal = true) (h : componentFileName p = none) : p = [] := by
  induction p using List.reverseRecOn with
  | nil => rfl
  | append_singleton xs x _ =>
    exfalso
    have hx : x.isNormal = true := hall x (List.mem_append_right xs (List.mem_singleton_self x))
    cases x with
    | normal s =>
      rw [componentFileName, List.getLast?_concat] at h
      exact Option.noConfusion h
    | parentDir => exact Bool.noConfusion hx
    | curDir => exact Bool.noConfusion hx
    | rootDir => exact Bool.noConfusion hx

/-- C7: `absolutize` errors exactly when the path contains a non-normal
component; otherwise it returns the absolute root joined with the path, and
the root itself when the path has no file-name component. -/
theorem c7_absolutize (s : Snapshot) (p : List PathComponent) :
    (s.absolutize p = none ↔ ∃ c ∈ p, c.isNormal = false) ∧
      ((∀ c ∈ p, c.isNormal = true) →
        s.absolutize p = some (s.absPath ++ normalComponents p)) ∧
      ((∀ c ∈ p, c.isNormal = true) → componentFileName p = none →
        s.absolutize p = some s.absPath) := by
  by_cases h : p.any fun c => !c.isNormal
  · have hex : ∃ c ∈ p, c.isNormal = false := by
      obtain ⟨c, hc, hcn⟩ := List.any_eq_true.mp h
      exact ⟨c, hc, by simpa using hcn⟩
    refine ⟨?_, ?_, ?_⟩
    · rw [Snapshot.absolutize, if_pos h]
      exact iff_of_true rfl hex
    · intro hall
      obtain ⟨c, hc, hcn⟩ := hex
      rw [hall c hc] at hcn
      exact Bool.noConfusion hcn
    · intro hall _
      obtain ⟨c, hc, hcn⟩ := hex
      rw [hall c hc] at hcn
      exact Bool.noConfusion hcn
  · have hall : ∀ c ∈ p, c.isNormal = true := by
      intro c hc
      by_contra hcn
      exact h (List.any_eq_true.mpr ⟨c, hc, by simpa using hcn⟩)
    refine ⟨?_, ?_, ?_⟩
    · simp only [Snapshot.absolutize, h, if_false]
      constructor
      · intro hnone
        by_cases hf : (componentFileName p).isSome <;> simp [hf] at hnone
      · rintro ⟨c, hc, hcn⟩
        rw [hall c hc] at hcn
        exact Bool.noConfusion hcn
    · intro _
      simp only [Snapshot.absolutize, h, if_false]
      by_cases hf : (componentFileName p).isSome
      · simp [hf]
      · have hnone : componentFileName p = none := Option.not_isSome_iff_eq_none.mp hf
        have hp := componentFileName_none_eq_nil hall hnone
        subst hp
        simp [normalComponents, hf]
    · intro _ hnone
      have hp := componentFileName_none_eq_nil hall hnone
      subst hp
      simp [Snapshot.absolutize, componentFileName]

/-- C7 witness: `absolutize` at the singleton normal path `a` under root `r`
returns `r/a`, and the error characterization holds there. -/
theorem c7_absolutize_witness :
    (Snapshot.new "r" [pc "r"]).absolutize [PathComponent.normal (pc "a")]
        = some [pc "r", pc "a"] ∧
      ¬ ((Snapshot.new "r" [pc "r"]).absolutize [PathComponent.normal (pc "a")] = none) := by
  have h := c7_absolutize (Snapshot.new "r" [pc "r"]) [PathComponent.normal (pc "a")]
  constructor
  · exact (h.2.1 (by decide)).trans (by decide)
  · rw [h.1]
    decide

/-! ### C8 -/

/-- For a sorted queue, the popped prefix of released awaiters is exactly the
set of targets at or below the observed scan id. -/
theorem takeWhile_le_eq_filter {l : List Nat} {c : Nat} (hs : List.Sorted (· ≤ ·) l) :
    l.takeWhile (fun k => decide (k ≤ c)) = l.filter (fun k => decide (k ≤ c)) := by
  induction l with
  | nil => rfl
  | cons k ks ih =>
    by_cases hk : k ≤ c
    · simp [List.takeWhile_cons, List.filter_cons, hk, ih hs.of_cons]
    · have hall : ∀ j ∈ ks, ¬ (j ≤ c) := fun j hj hjc =>
        hk (le_trans (List.rel_of_sorted_cons hs j hj) hjc)
      simp [List.takeWhile_cons, List.filter_cons, hk]
      exact fun a ha => not_le.mp (hall a ha)

/-- For a sorted queue, the awaiters left after the release loop are exactly
those whose target exceeds the observed scan id. -/
theorem dropWhile_le_eq_filter {l : List Nat} {c : Nat} (hs : List.Sorted (· ≤ ·) l) :
    l.dropWhile (fun k => decide (k ≤ c)) = l.filter (fun k => !(decide (k ≤ c))) := by
  induction l with
  | nil => rfl
  | cons k ks ih =>
    by_cases hk : k ≤ c
    · simp [List.dropWhile_cons, List.filter_cons, hk, ih hs.of_cons]
    · have hall : ∀ j ∈ ks, ¬ (j ≤ c) := fun j hj hjc =>
        hk (le_trans (List.rel_of_sorted_cons hs j hj) hjc)
      simp [List.dropWhile_cons, List.filter_cons, hk]
      exact (List.filter_eq_self.mpr fun j hj => by simpa using hall j hj).symm

/-- Members of the queue after an ordered insertion. -/
theorem subscriptionInsert_mem {l : List Nat} {k b : Nat}
    (hb : b ∈ subscriptionInsert k l) : b = k ∨ b ∈ l := by
  induction l with
  | nil => simpa [subscriptionInsert] using hb
  | cons j js ih =>
    by_cases hk : k ≤ j
    · rw [subscriptionInsert, if_pos hk] at hb
      rcases List.mem_cons.mp hb with rfl | hb
      · exact Or.inl rfl
      · exact Or.inr hb
    · rw [subscriptionInsert, if_neg hk] at hb
      rcases List.mem_cons.mp hb with rfl | hb
      · exact Or.inr (List.mem_cons_self _ _)
      · rcases ih hb with rfl | hb
        · exact Or.inl rfl
        · exact Or.inr (List.mem_cons_of_mem _ hb)

/-- The inserted target is in the queue. -/
theorem subscriptionInsert_self_mem (k : Nat) (l : List Nat) :
    k ∈ subscriptionInsert k l := by
  induction l with
  | nil => simp [subscriptionInsert]
  | cons j js ih =>
    by_cases hk : k ≤ j
    · rw [subscriptionInsert, if_pos hk]
      exact List.mem_cons_self _ _
    · rw [subscriptionInsert, if_neg hk]
      exact List.mem_cons_of_mem _ ih

/-- The ordered insertion of a new subscription target keeps the queue
sorted. -/
theorem subscriptionInsert_sorted {l : List Nat} (k : Nat)
    (hs : List.Sorted (· ≤ ·) l) : List.Sorted (· ≤ ·) (subscriptionInsert k l) := by
  induction l with
  | nil => simp [subscriptionInsert]
  | cons j js ih =>
    by_cases hk : k ≤ j
    · simp only [subscriptionInsert, if_pos hk]
      refine List.sorted_cons.mpr ⟨?_, hs⟩
      intro b hb
      rcases List.mem_cons.mp hb with rfl | hb
      · exact hk
      · exact le_trans hk (List.rel_of_sorted_cons hs b hb)
    · simp only [subscriptionInsert, if_neg hk]
      refine List.sorted_cons.mpr ⟨?_, ih hs.of_cons⟩
      intro b hb
      rcases subscriptionInsert_mem hb with rfl | hb
      · exact le_of_not_le hk
      · exact List.rel_of_sorted_cons hs b hb

/-- C8: `wait_for_snapshot(k)` resolves immediately iff `completed_scan_id ≥
k`; fails iff `completed_scan_id < k` and the worktree is disconnected; and
otherwise registers the awaiter at its sorted position — while the release
loop pops exactly the awaiters whose target is at most the observed
`completed_scan_id`, in ascending order. -/
theorem c8_wait_for_snapshot (st : RemoteWorktreeState) (k completed : Nat)
    (hs : List.Sorted (· ≤ ·) st.snapshotSubscriptions) :
    ((st.waitForSnapshot k).2 = .resolvedNow ↔ k ≤ st.completedScanId) ∧
      ((st.waitForSnapshot k).2 = .failed ↔
        st.completedScanId < k ∧ st.disconnected = true) ∧
      ((st.waitForSnapshot k).2 = .registered ↔
        st.completedScanId < k ∧ st.disconnected = false) ∧
      (st.completedScanId < k → st.disconnected = false →
        (st.waitForSnapshot k).1.snapshotSubscriptions
            = subscriptionInsert k st.snapshotSubscriptions ∧
          List.Sorted (· ≤ ·) (subscriptionInsert k st.snapshotSubscriptions) ∧
          k ∈ subscriptionInsert k st.snapshotSubscriptions) ∧
      ((releaseSnapshotSubscriptions st.snapshotSubscriptions completed).1
          = st.snapshotSubscriptions.filter (fun j => decide (j ≤ completed)) ∧
        (releaseSnapshotSubscriptions st.snapshotSubscriptions completed).2
          = st.snapshotSubscriptions.filter (fun j => !(decide (j ≤ completed))) ∧
        List.Sorted (· ≤ ·)
          (releaseSnapshotSubscriptions st.snapshotSubscriptions completed).1) := by
  have hrel : (releaseSnapshotSubscriptions st.snapshotSubscriptions completed).1
      = st.snapshotSubscriptions.filter (fun j => decide (j ≤ completed)) :=
    takeWhile_le_eq_filter hs
  refine ⟨?_, ?_, ?_, ?_, hrel, dropWhile_le_eq_filter hs, ?_⟩
  · by_cases h1 : k ≤ st.completedScanId
    · simp [RemoteWorktreeState.waitForSnapshot, RemoteWorktreeState.observedSnapshot, h1]
    · by_cases h2 : st.disconnected <;>
        simp [RemoteWorktreeState.waitForSnapshot, RemoteWorktreeState.observedSnapshot,
          h1, h2]
  · by_cases h1 : k ≤ st.completedScanId
    · simp [RemoteWorktreeState.waitForSnapshot, RemoteWorktreeState.observedSnapshot, h1,
        Nat.not_lt.mpr h1]
    · by_cases h2 : st.disconnected <;>
        simp [RemoteWorktreeState.waitForSnapshot, RemoteWorktreeState.observedSnapshot,
          h1, h2, Nat.lt_of_not_le h1]
  · by_cases h1 : k ≤ st.completedScanId
    · simp [RemoteWorktreeState.waitForSnapshot, RemoteWorktreeState.observedSnapshot, h1,
        Nat.not_lt.mpr h1]
    · by_cases h2 : st.disconnected <;>
        simp [RemoteWorktreeState.waitForSnapshot, RemoteWorktreeState.observedSnapshot,
          h1, h2, Nat.lt_of_not_le h1]
  · intro h1 h2
    have h1' : ¬ (k ≤ st.completedScanId) := Nat.not_le.mpr h1
    refine ⟨?_, subscriptionInsert_sorted k hs, subscriptionInsert_self_mem k _⟩
    simp [RemoteWorktreeState.waitForSnapshot, RemoteWorktreeState.observedSnapshot, h1', h2]
  · rw [hrel]
    exact List.Sorted.filter _ hs

/-- C8 witness: with scan id 3 observed and awaiters for 4 and 6 pending, a
`wait_for_snapshot(5)` call registers. -/
theorem c8_wait_for_snapshot_witness :
    (c8State.waitForSnapshot 5).2 = .registered :=
  ((c8_wait_for_snapshot c8State 5 5 (by decide)).2.2.1).mpr (by decide)

/-! ### Path-order facts -/

theorem underDir_iff {p q : EntryPath} : underDir p q = true ↔ p <+: q := by
  induction p generalizing q with
  | nil => simp [underDir]
  | cons a s ih =>
    cases q with
    | nil =>
      simp only [underDir, Bool.false_eq_true, false_iff]
      intro hc
      exact absurd (List.eq_nil_of_prefix_nil hc) (by simp)
    | cons b t =>
      rw [underDir, Bool.and_eq_true, beq_iff_eq, ih]
      constructor
      · rintro ⟨rfl, hst⟩
        obtain ⟨u, rfl⟩ := hst
        exact ⟨u, by rw [List.cons_append]⟩
      · intro h
        obtain ⟨u, hu⟩ := h
        rw [List.cons_append] at hu
        exact ⟨(List.cons.injEq _ _ _ _ ▸ hu).1, ⟨u, ((List.cons.injEq _ _ _ _).mp hu).2⟩⟩

theorem underDir_refl (p : EntryPath) : underDir p p = true :=
  underDir_iff.mpr (List.prefix_refl p)

theorem le_of_underDir {p q : EntryPath} (h : p <+: q) : p ≤ q := by
  obtain ⟨t, rfl⟩ := h
  induction p with
  | nil =>
    cases t with
    | nil => exact le_refl _
    | cons x xs => exact le_of_lt List.Lex.nil
  | cons x xs ih =>
    rcases lt_or_eq_of_le ih with h' | h'
    · exact le_of_lt (List.Lex.cons h')
    · rw [List.cons_append]
      exact le_of_eq (by rw [← h'])

theorem cons_le_decompose {x y : PathComp} {xs ys : List PathComp}
    (h : (x :: xs : EntryPath) ≤ y :: ys) : x < y ∨ (x = y ∧ xs ≤ ys) := by
  rcases lt_or_eq_of_le h with h' | h'
  · cases h' with
    | cons h2 => exact Or.inr ⟨rfl, le_of_lt h2⟩
    | rel h2 => exact Or.inl h2
  · cases h'
    exact Or.inr ⟨rfl, le_refl _⟩

/-- Every path between a directory and one of its descendants is itself a
descendant of the directory: the subtree below a path is contiguous in the
lexicographic order. -/
theorem prefix_of_between {p z y : EntryPath} (hpz : p ≤ z) (hzy : z ≤ y)
    (hpy : p <+: y) : p <+: z := by
  induction p generalizing z y with
  | nil => exact List.nil_prefix
  | cons a s ih =>
    cases z with
    | nil =>
      exfalso
      rcases lt_or_eq_of_le hpz with h' | h'
      · cases h'
      · exact List.noConfusion h'
    | cons b t =>
      obtain ⟨u, hu⟩ := hpy
      rw [List.cons_append] at hu
      subst hu
      rcases cons_le_decompose hpz with hab | ⟨rfl, hst⟩
      · exfalso
        rcases cons_le_decompose hzy with hba | ⟨hba, -⟩
        · exact absurd (lt_trans hab hba) (lt_irrefl a)
        · rw [hba] at hab
          exact lt_irrefl a hab
      · rcases cons_le_decompose hzy with hba | ⟨-, htu⟩
        · exact absurd hba (lt_irrefl a)
        · obtain ⟨v, hv⟩ := ih hst htu ⟨u, rfl⟩
          exact ⟨v, by rw [List.cons_append, hv]⟩

/-! ### C2 -/

theorem trackedStatusFromProto_toProto (c : StatusCode) :
    trackedStatusFromProto (trackedStatusToProto c) = some c := by
  cases c <;> rfl

theorem unmergedStatusFromProto_toProto (c : UnmergedStatusCode) :
    unmergedStatusFromProto (unmergedStatusToProto c) = some c := by
  cases c <;> rfl

/-- Decoding a wire status variant produced by `status_to_proto` recovers the
original status, whatever the accompanying simple status code. -/
theorem statusFromProto_statusToProto (g : GitStatus) (st : FileStatus) :
    statusFromProto g (some (statusToProto st)) = some st := by
  cases st with
  | untracked => rfl
  | ignored => rfl
  | unmerged u =>
    obtain ⟨f, s⟩ := u
    cases f <;> cases s <;> rfl
  | tracked t =>
    obtain ⟨i, w⟩ := t
    cases i <;> cases w <;> rfl

/-- `StatusEntry` round trip through the wire encoding. -/
theorem statusEntryFromProto_toProto (e : StatusEntry) :
    statusEntryFromProto e.toProto = some e := by
  obtain ⟨p, st⟩ := e
  simp only [statusEntryFromProto, StatusEntry.toProto, statusFromProto_statusToProto,
    Option.map_some']

theorem editRemovedKeys_map_rem {α κ : Type} (r : List κ) :
    editRemovedKeys ((r.map MapEdit.rem : List (MapEdit α κ))) = r := by
  induction r with
  | nil => rfl
  | cons k ks ih => simp [editRemovedKeys, ih]

theorem editInserts_map_rem {α κ : Type} (r : List κ) :
    editInserts ((r.map MapEdit.rem : List (MapEdit α κ))) = [] := by
  induction r with
  | nil => rfl
  | cons k ks ih => simp [editInserts, ih]

theorem editRemovedKeys_filterMap_ins {α β κ : Type} (f : β → Option α) (l : List β) :
    editRemovedKeys ((l.filterMap fun p => (f p).map MapEdit.ins : List (MapEdit α κ))) = [] := by
  induction l with
  | nil => rfl
  | cons b bs ih =>
    rw [List.filterMap_cons]
    cases f b with
    | none => exact ih
    | some a => simpa [editRemovedKeys] using ih

theorem editInserts_filterMap_ins {α β κ : Type} (f : β → Option α) (l : List β) :
    editInserts ((l.filterMap fun p => (f p).map MapEdit.ins : List (MapEdit α κ)))
      = l.filterMap f := by
  induction l with
  | nil => rfl
  | cons b bs ih =>
    rw [List.filterMap_cons, List.filterMap_cons]
    cases f b with
    | none => exact ih
    | some a => simpa [editInserts] using ih

/-- The decoded `updated_statuses` of the per-repository diff form a sublist
of the new status sequence. -/
theorem diff_upd_sublist (ns os : List StatusEntry) :
    ((buildStatusesDiff ns os).1.filterMap statusEntryFromProto).Sublist ns := by
  induction ns, os using buildStatusesDiff.induct with
  | case1 => simp [buildStatusesDiff]
  | case2 o os u r hd ih =>
    rw [buildStatusesDiff, hd]
    rw [hd] at ih
    exact ih
  | case3 n ns u r hd ih =>
    rw [buildStatusesDiff, hd]
    rw [hd] at ih
    simpa [List.filterMap_cons, statusEntryFromProto_toProto] using ih.cons₂ n
  | case4 n ns o os hlt u r hd ih =>
    rw [buildStatusesDiff, if_pos hlt, hd]
    rw [hd] at ih
    simpa [List.filterMap_cons, statusEntryFromProto_toProto] using ih.cons₂ n
  | case5 n ns o os hlt heq u r hd ih =>
    rw [buildStatusesDiff, if_neg hlt, if_pos heq, hd]
    rw [hd] at ih
    by_cases hst : n.status ≠ o.status
    · simpa [hst, List.filterMap_cons, statusEntryFromProto_toProto] using ih.cons₂ n
    · simpa [hst] using ih.cons n
  | case6 n ns o os hlt hne u r hd ih =>
    rw [buildStatusesDiff, if_neg hlt, if_neg hne, hd]
    rw [hd] at ih
    exact ih

/-- The `removed_statuses` of the per-repository diff form a sublist of the
old sequence's keys. -/
theorem diff_rem_sublist (ns os : List StatusEntry) :
    ((buildStatusesDiff ns os).2).Sublist (os.map StatusEntry.repoPath) := by
  induction ns, os using buildStatusesDiff.induct with
  | case1 => simp [buildStatusesDiff]
  | case2 o os u r hd ih =>
    rw [buildStatusesDiff, hd]
    rw [hd] at ih
    simpa using ih.cons₂ o.repoPath
  | case3 n ns u r hd ih =>
    rw [buildStatusesDiff, hd]
    rw [hd] at ih
    exact ih
  | case4 n ns o os hlt u r hd ih =>
    rw [buildStatusesDiff, if_pos hlt, hd]
    rw [hd] at ih
    exact ih
  | case5 n ns o os hlt heq u r hd ih =>
    rw [buildStatusesDiff, if_neg hlt, if_pos heq, hd]
    rw [hd] at ih
    exact ih.cons o.repoPath
  | case6 n ns o os hlt hne u r hd ih =>
    rw [buildStatusesDiff, if_neg hlt, if_neg hne, hd]
    rw [hd] at ih
    simpa using ih.cons₂ o.repoPath

theorem smGet_cons_ne' {α κ : Type} [LinearOrder κ] {key : α → κ} {k : κ} {y : α}
    {ys : List α} (h : ¬ key y = k) : smGet key k (y :: ys) = smGet key k ys := by
  simp [smGet, h]

theorem smGet_cons_self' {α κ : Type} [LinearOrder κ] {key : α → κ} (y : α)
    (ys : List α) : smGet key (key y) (y :: ys) = some y := by
  simp [smGet]

/-- Which entries the per-repository diff reports as updated: exactly the new
entries whose key is absent from the old map or mapped to a different
status. -/
theorem diff_mem_upd (ns os : List StatusEntry) (hn : smWF StatusEntry.repoPath ns)
    (ho : smWF StatusEntry.repoPath os) (e : StatusEntry) :
    e ∈ (buildStatusesDiff ns os).1.filterMap statusEntryFromProto ↔
      e ∈ ns ∧ smGet StatusEntry.repoPath e.repoPath os ≠ some e := by
  induction ns, os using buildStatusesDiff.induct generalizing e with
  | case1 => simp [buildStatusesDiff]
  | case2 o os u r hd ih =>
    rw [buildStatusesDiff, hd]
    rw [hd] at ih
    exact iff_of_false
      (fun he => by simpa using ((ih hn (List.pairwise_cons.mp ho).2 e).mp he).1)
      (by simp)
  | case3 n ns u r hd ih =>
    rw [buildStatusesDiff, hd]
    rw [hd] at ih
    obtain ⟨hnh, hnt⟩ := List.pairwise_cons.mp hn
    rw [List.filterMap_cons, statusEntryFromProto_toProto]
    constructor
    · intro he
      rcases List.mem_cons.mp he with rfl | he'
      · exact ⟨List.mem_cons_self _ _, by simp [smGet]⟩
      · exact ⟨List.mem_cons_of_mem _ ((ih hnt ho e).mp he').1, by simp [smGet]⟩
    · rintro ⟨he, -⟩
      rcases List.mem_cons.mp he with rfl | he'
      · exact List.mem_cons_self _ _
      · exact List.mem_cons_of_mem _ ((ih hnt ho e).mpr ⟨he', by simp [smGet]⟩)
  | case4 n ns o os hlt u r hd ih =>
    rw [buildStatusesDiff, if_pos hlt, hd]
    rw [hd] at ih
    obtain ⟨hnh, hnt⟩ := List.pairwise_cons.mp hn
    obtain ⟨hoh, _⟩ := List.pairwise_cons.mp ho
    rw [List.filterMap_cons, statusEntryFromProto_toProto]
    have hnone : smGet StatusEntry.repoPath n.repoPath (o :: os) = none := by
      rw [smGet_eq_none]
      intro x hx
      rcases List.mem_cons.mp hx with rfl | hx'
      · exact ne_of_gt hlt
      · exact ne_of_gt (lt_trans hlt (hoh x hx'))
    constructor
    · intro he
      rcases List.mem_cons.mp he with rfl | he'
      · exact ⟨List.mem_cons_self _ _, by rw [hnone]; exact fun hc => Option.noConfusion hc⟩
      · obtain ⟨h1, h2⟩ := (ih hnt ho e).mp he'
        exact ⟨List.mem_cons_of_mem _ h1, h2⟩
    · rintro ⟨he, hcond⟩
      rcases List.mem_cons.mp he with rfl | he'
      · exact List.mem_cons_self _ _
      · exact List.mem_cons_of_mem _ ((ih hnt ho e).mpr ⟨he', hcond⟩)
  | case5 n ns o os hlt heq u r hd ih =>
    rw [buildStatusesDiff, if_neg hlt, if_pos heq]
    simp only [hd]
    rw [hd] at ih
    obtain ⟨hnh, hnt⟩ := List.pairwise_cons.mp hn
    obtain ⟨hoh, hot⟩ := List.pairwise_cons.mp ho
    have hrewrite : ∀ x ∈ ns,
        smGet StatusEntry.repoPath x.repoPath (o :: os)
          = smGet StatusEntry.repoPath x.repoPath os := by
      intro x hx
      exact smGet_cons_ne' (ne_of_lt (heq ▸ hnh x hx))
    have hgetn : smGet StatusEntry.repoPath n.repoPath (o :: os) = some o := by
      rw [show n.repoPath = o.repoPath from heq]
      exact smGet_cons_self' o os
    by_cases hst : n.status ≠ o.status
    · rw [if_pos hst, List.filterMap_cons, statusEntryFromProto_toProto]
      constructor
      · intro he
        rcases List.mem_cons.mp he with rfl | he'
        · refine ⟨List.mem_cons_self _ _, ?_⟩
          rw [hgetn]
          intro hc
          have := Option.some.inj hc
          exact hst (this ▸ rfl)
        · obtain ⟨h1, h2⟩ := (ih hnt hot e).mp he'
          exact ⟨List.mem_cons_of_mem _ h1, by rwa [hrewrite e h1]⟩
      · rintro ⟨he, hcond⟩
        rcases List.mem_cons.mp he with rfl | he'
        · exact List.mem_cons_self _ _
        · exact List.mem_cons_of_mem _
            ((ih hnt hot e).mpr ⟨he', by rwa [hrewrite e he'] at hcond⟩)
    · rw [if_neg hst]
      have hno : n = o := by
        have hstatus : n.status = o.status := not_ne_iff.mp hst
        cases n
        cases o
        simp only at heq hstatus
        simp [heq, hstatus]
      constructor
      · intro he
        obtain ⟨h1, h2⟩ := (ih hnt hot e).mp he
        exact ⟨List.mem_cons_of_mem _ h1, by rwa [hrewrite e h1]⟩
      · rintro ⟨he, hcond⟩
        rcases List.mem_cons.mp he with rfl | he'
        · exfalso
          rw [hgetn, ← hno] at hcond
          exact hcond rfl
        · exact (ih hnt hot e).mpr ⟨he', by rwa [hrewrite e he'] at hcond⟩
  | case6 n ns o os hlt hne u r hd ih =>
    rw [buildStatusesDiff, if_neg hlt, if_neg hne, hd]
    rw [hd] at ih
    obtain ⟨hoh, hot⟩ := List.pairwise_cons.mp ho
    have hgt : o.repoPath < n.repoPath :=
      lt_of_le_of_ne (not_lt.mp hlt) fun hc => hne hc.symm
    have hrewrite : ∀ x ∈ n :: ns,
        smGet StatusEntry.repoPath x.repoPath (o :: os)
          = smGet StatusEntry.repoPath x.repoPath os := by
      intro x hx
      have hxk : o.repoPath < x.repoPath := by
        rcases List.mem_cons.mp hx with rfl | hx'
        · exact hgt
        · exact lt_trans hgt ((List.pairwise_cons.mp hn).1 x hx')
      exact smGet_cons_ne' (ne_of_lt hxk)
    constructor
    · intro he
      obtain ⟨h1, h2⟩ := (ih hn hot e).mp he
      exact ⟨h1, by rwa [hrewrite e h1]⟩
    · rintro ⟨he, hcond⟩
      exact (ih hn hot e).mpr ⟨he, by rwa [hrewrite e he] at hcond⟩

/-- Which keys the per-repository diff reports as removed: exactly the old
keys that are absent from the new sequence. -/
theorem diff_mem_rem (ns os : List StatusEntry) (hn : smWF StatusEntry.repoPath ns)
    (ho : smWF StatusEntry.repoPath os) (k : RepoPath) :
    k ∈ (buildStatusesDiff ns os).2 ↔
      (∃ o ∈ os, o.repoPath = k) ∧ ∀ n ∈ ns, n.repoPath ≠ k := by
  induction ns, os using buildStatusesDiff.induct generalizing k with
  | case1 => simp [buildStatusesDiff]
  | case2 o os u r hd ih =>
    rw [buildStatusesDiff]
    simp only [hd]
    rw [hd] at ih
    obtain ⟨hoh, hot⟩ := List.pairwise_cons.mp ho
    rw [List.mem_cons]
    constructor
    · intro hk
      rcases hk with rfl | hk'
      · exact ⟨⟨o, List.mem_cons_self _ _, rfl⟩, by simp⟩
      · obtain ⟨⟨o', ho', rfl⟩, -⟩ := (ih hn hot k).mp hk'
        exact ⟨⟨o', List.mem_cons_of_mem _ ho', rfl⟩, by simp⟩
    · rintro ⟨⟨o', ho', rfl⟩, -⟩
      rcases List.mem_cons.mp ho' with rfl | ho''
      · exact Or.inl rfl
      · exact Or.inr ((ih hn hot o'.repoPath).mpr ⟨⟨o', ho'', rfl⟩, by simp⟩)
  | case3 n ns u r hd ih =>
    rw [buildStatusesDiff]
    simp only [hd]
    rw [hd] at ih
    exact iff_of_false
      (fun hk => by simpa using ((ih (List.pairwise_cons.mp hn).2 ho k).mp hk).1)
      (by simp)
  | case4 n ns o os hlt u r hd ih =>
    rw [buildStatusesDiff, if_pos hlt]
    simp only [hd]
    rw [hd] at ih
    obtain ⟨hnh, hnt⟩ := List.pairwise_cons.mp hn
    obtain ⟨hoh, hot⟩ := List.pairwise_cons.mp ho
    constructor
    · intro hk
      obtain ⟨⟨o', ho', rfl⟩, hnone⟩ := (ih hnt ho k).mp hk
      refine ⟨⟨o', ho', rfl⟩, ?_⟩
      intro x hx
      rcases List.mem_cons.mp hx with rfl | hx'
      · have : x.repoPath < o'.repoPath := by
          rcases List.mem_cons.mp ho' with rfl | ho''
          · exact hlt
          · exact lt_trans hlt (hoh o' ho'')
        exact ne_of_lt this
      · exact hnone x hx'
    · rintro ⟨hex, hnone⟩
      exact (ih hnt ho k).mpr ⟨hex, fun x hx => hnone x (List.mem_cons_of_mem _ hx)⟩
  | case5 n ns o os hlt heq u r hd ih =>
    rw [buildStatusesDiff, if_neg hlt, if_pos heq]
    simp only [hd]
    rw [hd] at ih
    obtain ⟨hnh, hnt⟩ := List.pairwise_cons.mp hn
    obtain ⟨hoh, hot⟩ := List.pairwise_cons.mp ho
    constructor
    · intro hk
      obtain ⟨⟨o', ho', rfl⟩, hnone⟩ := (ih hnt hot k).mp hk
      refine ⟨⟨o', List.mem_cons_of_mem _ ho', rfl⟩, ?_⟩
      intro x hx
      rcases List.mem_cons.mp hx with rfl | hx'
      · exact heq ▸ ne_of_lt (hoh o' ho')
      · exact hnone x hx'
    · rintro ⟨⟨o', ho', rfl⟩, hnone⟩
      rcases List.mem_cons.mp ho' with rfl | ho''
      · exact absurd (heq.trans rfl) (hnone n (List.mem_cons_self _ _))
      · exact (ih hnt hot o'.repoPath).mpr
          ⟨⟨o', ho'', rfl⟩, fun x hx => hnone x (List.mem_cons_of_mem _ hx)⟩
  | case6 n ns o os hlt hne u r hd ih =>
    rw [buildStatusesDiff, if_neg hlt, if_neg hne]
    simp only [hd]
    rw [hd] at ih
    obtain ⟨hnh, hnt⟩ := List.pairwise_cons.mp hn
    obtain ⟨hoh, hot⟩ := List.pairwise_cons.mp ho
    have hgt : o.repoPath < n.repoPath :=
      lt_of_le_of_ne (not_lt.mp hlt) fun hc => hne hc.symm
    rw [List.mem_cons]
    constructor
    · intro hk
      rcases hk with rfl | hk'
      · refine ⟨⟨o, List.mem_cons_self _ _, rfl⟩, ?_⟩
        intro x hx
        have : o.repoPath < x.repoPath := by
          rcases List.mem_cons.mp hx with rfl | hx'
          · exact hgt
          · exact lt_trans hgt (hnh x hx')
        exact (ne_of_lt this).symm
      · obtain ⟨⟨o', ho', rfl⟩, hnone⟩ := (ih hn hot k).mp hk'
        exact ⟨⟨o', List.mem_cons_of_mem _ ho', rfl⟩, hnone⟩
    · rintro ⟨⟨o', ho', rfl⟩, hnone⟩
      rcases List.mem_cons.mp ho' with rfl | ho''
      · exact Or.inl rfl
      · exact Or.inr ((ih hn hot o'.repoPath).mpr ⟨⟨o', ho'', rfl⟩, hnone⟩)

/-- Replaying the diff on the old map agrees with the new map on every key:
inserted entries win, removed keys disappear, untouched keys fall through to
the old map. -/
theorem diff_apply_lookup [instB : BEq RepoPath] [instL : LawfulBEq RepoPath]
    (ns os : List StatusEntry) (hn : smWF StatusEntry.repoPath ns)
    (ho : smWF StatusEntry.repoPath os) (k : RepoPath) :
    (match smGet StatusEntry.repoPath k
        ((buildStatusesDiff ns os).1.filterMap statusEntryFromProto) with
      | some x => some x
      | none =>
        if ((buildStatusesDiff ns os).2).contains k then none
        else smGet StatusEntry.repoPath k os)
      = smGet StatusEntry.repoPath k ns := by
  have hdecwf : smWF StatusEntry.repoPath
      ((buildStatusesDiff ns os).1.filterMap statusEntryFromProto) :=
    List.Pairwise.sublist (diff_upd_sublist ns os) hn
  cases hu : smGet StatusEntry.repoPath k
      ((buildStatusesDiff ns os).1.filterMap statusEntryFromProto) with
  | some x =>
    obtain ⟨hmem, hkey⟩ := smGet_eq_some hu
    obtain ⟨hin, -⟩ := (diff_mem_upd ns os hn ho x).mp hmem
    rw [← hkey]
    exact (smGet_of_mem hn hin).symm
  | none =>
    by_cases hr : ((buildStatusesDiff ns os).2).contains k = true
    · rw [if_pos hr]
      have hkmem : k ∈ (buildStatusesDiff ns os).2 := by
        rw [List.contains, List.elem_iff] at hr
        exact hr
      obtain ⟨-, hnone⟩ := (diff_mem_rem ns os hn ho k).mp hkmem
      exact (smGet_eq_none.mpr hnone).symm
    · rw [if_neg hr]
      have hknotrem : ¬ ((∃ o ∈ os, o.repoPath = k) ∧ ∀ n ∈ ns, n.repoPath ≠ k) := by
        intro hc
        exact hr (by
          rw [List.contains, List.elem_iff]
          exact (diff_mem_rem ns os hn ho k).mpr hc)
      cases hgn : smGet StatusEntry.repoPath k ns with
      | some v =>
        obtain ⟨hvmem, hvkey⟩ := smGet_eq_some hgn
        by_cases hos : smGet StatusEntry.repoPath k os = some v
        · exact hos
        · exfalso
          have hvdec : v ∈ (buildStatusesDiff ns os).1.filterMap statusEntryFromProto :=
            (diff_mem_upd ns os hn ho v).mpr ⟨hvmem, by rwa [hvkey]⟩
          have hg := smGet_of_mem hdecwf hvdec
          rw [hvkey, hu] at hg
          exact Option.noConfusion hg
      | none =>
        have hnsnone : ∀ n ∈ ns, n.repoPath ≠ k := smGet_eq_none.mp hgn
        cases hgo : smGet StatusEntry.repoPath k os with
        | none => rfl
        | some w =>
          exfalso
          obtain ⟨hwmem, hwkey⟩ := smGet_eq_some hgo
          exact hknotrem ⟨⟨w, hwmem, hwkey⟩, hnsnone⟩

/-- C2: the per-repository status diff round-trips — applying
`new.build_update(old)` to `old` (removals, then decoded insertions, branch
forwarded) reproduces `new`'s `statuses_by_path` and branch. -/
theorem buildUpdate_eq (self old : RepositoryEntry) :
    self.buildUpdate old =
      { workDirectoryId := self.workDirectoryId
        branch := self.branch
        updatedStatuses := (buildStatusesDiff self.statusesByPath old.statusesByPath).1
        removedStatuses := (buildStatusesDiff self.statusesByPath old.statusesByPath).2 } := by
  rw [RepositoryEntry.buildUpdate]

theorem c2_repository_round_trip (oldRepo newRepo : RepositoryEntry)
    (_hwd : oldRepo.workDirectoryPath = newRepo.workDirectoryPath)
    (hold : smWF StatusEntry.repoPath oldRepo.statusesByPath)
    (hnew : smWF StatusEntry.repoPath newRepo.statusesByPath) :
    (oldRepo.applyUpdate (newRepo.buildUpdate oldRepo)).statusesByPath
        = newRepo.statusesByPath ∧
      (oldRepo.applyUpdate (newRepo.buildUpdate oldRepo)).branch = newRepo.branch := by
  have hbu := buildUpdate_eq newRepo oldRepo
  have hedits : (oldRepo.applyUpdate (newRepo.buildUpdate oldRepo)).statusesByPath
      = smEdit StatusEntry.repoPath oldRepo.statusesByPath
          (((buildStatusesDiff newRepo.statusesByPath
                oldRepo.statusesByPath).2).map MapEdit.rem ++
            ((buildStatusesDiff newRepo.statusesByPath
                oldRepo.statusesByPath).1).filterMap
              fun p => (statusEntryFromProto p).map MapEdit.ins) := by
    rw [RepositoryEntry.applyUpdate, hbu]
  constructor
  · have hdecwf : smWF StatusEntry.repoPath
        ((buildStatusesDiff newRepo.statusesByPath
            oldRepo.statusesByPath).1.filterMap statusEntryFromProto) :=
      List.Pairwise.sublist
        (diff_upd_sublist newRepo.statusesByPath oldRepo.statusesByPath) hnew
    have hAwf : smWF StatusEntry.repoPath
        ((oldRepo.applyUpdate (newRepo.buildUpdate oldRepo)).statusesByPath) := by
      rw [hedits]
      exact smWF_smEdit _ hold
    refine smGet_ext hAwf hnew ?_
    intro k
    rw [hedits]
    have hEI : editInserts
        (((buildStatusesDiff newRepo.statusesByPath
              oldRepo.statusesByPath).2).map MapEdit.rem ++
          ((buildStatusesDiff newRepo.statusesByPath
              oldRepo.statusesByPath).1).filterMap
            fun p => (statusEntryFromProto p).map MapEdit.ins)
        = (buildStatusesDiff newRepo.statusesByPath
            oldRepo.statusesByPath).1.filterMap statusEntryFromProto := by
      rw [editInserts_append, editInserts_map_rem, editInserts_filterMap_ins,
        List.nil_append]
    have hER : editRemovedKeys
        (((buildStatusesDiff newRepo.statusesByPath
              oldRepo.statusesByPath).2).map MapEdit.rem ++
          ((buildStatusesDiff newRepo.statusesByPath
              oldRepo.statusesByPath).1).filterMap
            fun p => (statusEntryFromProto p).map MapEdit.ins)
        = (buildStatusesDiff newRepo.statusesByPath oldRepo.statusesByPath).2 := by
      rw [editRemovedKeys_append, editRemovedKeys_map_rem,
        editRemovedKeys_filterMap_ins, List.append_nil]
    have hwfIns : smWF StatusEntry.repoPath (editInserts
        (((buildStatusesDiff newRepo.statusesByPath
              oldRepo.statusesByPath).2).map MapEdit.rem ++
          ((buildStatusesDiff newRepo.statusesByPath
              oldRepo.statusesByPath).1).filterMap
            fun p => (statusEntryFromProto p).map MapEdit.ins)) := by
      rw [hEI]
      exact hdecwf
    rcases smGet_smEdit_lookup k oldRepo.statusesByPath _ hwfIns with
      ⟨x, hx1, hx2⟩ | ⟨h1, h2, h3⟩ | ⟨h1, h2, h3⟩
    · rw [hx2]
      rw [hEI] at hx1
      obtain ⟨hmem, hkey⟩ := smGet_eq_some hx1
      obtain ⟨hin, -⟩ :=
        (diff_mem_upd newRepo.statusesByPath oldRepo.statusesByPath hnew hold x).mp hmem
      rw [← hkey]
      exact (smGet_of_mem hnew hin).symm
    · rw [h3]
      rw [hER] at h2
      obtain ⟨-, hnone⟩ :=
        (diff_mem_rem newRepo.statusesByPath oldRepo.statusesByPath hnew hold k).mp h2
      exact (smGet_eq_none.mpr hnone).symm
    · rw [h3]
      rw [hEI] at h1
      rw [hER] at h2
      have hknotrem : ¬ ((∃ o ∈ oldRepo.statusesByPath, o.repoPath = k) ∧
          ∀ n ∈ newRepo.statusesByPath, n.repoPath ≠ k) := fun hc =>
        h2 ((diff_mem_rem newRepo.statusesByPath oldRepo.statusesByPath
          hnew hold k).mpr hc)
      cases hgn : smGet StatusEntry.repoPath k newRepo.statusesByPath with
      | some v =>
        obtain ⟨hvmem, hvkey⟩ := smGet_eq_some hgn
        by_cases hos : smGet StatusEntry.repoPath k oldRepo.statusesByPath = some v
        · exact hos
        · exfalso
          have hvdec : v ∈ (buildStatusesDiff newRepo.statusesByPath
              oldRepo.statusesByPath).1.filterMap statusEntryFromProto :=
            (diff_mem_upd newRepo.statusesByPath oldRepo.statusesByPath
              hnew hold v).mpr ⟨hvmem, by rwa [hvkey]⟩
          have hg := smGet_of_mem hdecwf hvdec
          rw [hvkey, h1] at hg
          exact Option.noConfusion hg
      | none =>
        have hnsnone : ∀ n ∈ newRepo.statusesByPath, n.repoPath ≠ k :=
          smGet_eq_none.mp hgn
        cases hgo : smGet StatusEntry.repoPath k oldRepo.statusesByPath with
        | none => rfl
        | some w =>
          exfalso
          obtain ⟨hwmem, hwkey⟩ := smGet_eq_some hgo
          exact hknotrem ⟨⟨w, hwmem, hwkey⟩, hnsnone⟩
  · rw [show (oldRepo.applyUpdate (newRepo.buildUpdate oldRepo)).branch
        = (newRepo.buildUpdate oldRepo).branch from rfl, hbu]

/-- C2 witness: the round trip applied to two concrete repositories sharing
the root work directory. -/
theorem c2_repository_round_trip_witness :
    (c2OldRepo.applyUpdate (c2NewRepo.buildUpdate c2OldRepo)).statusesByPath
        = c2NewRepo.statusesByPath ∧
      (c2OldRepo.applyUpdate (c2NewRepo.buildUpdate c2OldRepo)).branch
        = c2NewRepo.branch :=
  c2_repository_round_trip c2OldRepo c2NewRepo rfl
    (by unfold smWF c2OldRepo; decide) (by unfold smWF c2NewRepo; decide)

/-! ### C6 -/

theorem mem_sortedInsertOn {α : Type} {key : α → Nat} {x z : α} {l : List α} :
    z ∈ sortedInsertOn key x l ↔ z = x ∨ z ∈ l := by
  induction l with
  | nil => simp [sortedInsertOn]
  | cons y ys ih =>
    by_cases hk : key x ≤ key y
    · rw [sortedInsertOn, if_pos hk]
      simp
    · rw [sortedInsertOn, if_neg hk]
      simp only [List.mem_cons, ih]
      tauto

theorem sortedInsertOn_sorted {α : Type} {key : α → Nat} {x : α} {l : List α}
    (hs : List.Sorted (fun a b => key a ≤ key b) l) :
    List.Sorted (fun a b => key a ≤ key b) (sortedInsertOn key x l) := by
  induction l with
  | nil => simp [sortedInsertOn]
  | cons y ys ih =>
    by_cases hk : key x ≤ key y
    · rw [sortedInsertOn, if_pos hk]
      refine List.sorted_cons.mpr ⟨?_, hs⟩
      intro b hb
      rcases List.mem_cons.mp hb with rfl | hb
      · exact hk
      · exact le_trans hk (List.rel_of_sorted_cons hs b hb)
    · rw [sortedInsertOn, if_neg hk]
      refine List.sorted_cons.mpr ⟨?_, ih hs.of_cons⟩
      intro b hb
      rcases mem_sortedInsertOn.mp hb with rfl | hb
      · exact le_of_not_le hk
      · exact List.rel_of_sorted_cons hs b hb

theorem sortOn_sorted {α : Type} (key : α → Nat) (l : List α) :
    List.Sorted (fun a b => key a ≤ key b) (sortOn key l) := by
  induction l with
  | nil => simp [sortOn]
  | cons x xs ih => exact sortedInsertOn_sorted ih

theorem mem_sortOn {α : Type} {key : α → Nat} {z : α} {l : List α} :
    z ∈ sortOn key l ↔ z ∈ l := by
  induction l with
  | nil => simp [sortOn]
  | cons x xs ih =>
    rw [sortOn, mem_sortedInsertOn]
    simp [ih]

/-- The per-change collection loop of `Snapshot::build_update`, in closed
form: removed ids on one side, wire entries resolved through the identity
index on the other. -/
theorem buildUpdate_step_spec (s : Snapshot)
    (entryChanges : List (EntryPath × Nat × PathChange))
    (acc : List ProtoEntry × List Nat) :
    entryChanges.foldl
        (fun (acc : List ProtoEntry × List Nat) change =>
          if change.2.2 = PathChange.removed then (acc.1, acc.2 ++ [change.2.1])
          else
            match s.entryForId change.2.1 with
            | some entry => (acc.1 ++ [entry.toProto], acc.2)
            | none => acc)
        acc =
      (acc.1 ++ entryChanges.filterMap (fun change =>
          if change.2.2 = PathChange.removed then none
          else (s.entryForId change.2.1).map Entry.toProto),
        acc.2 ++ entryChanges.filterMap (fun change =>
          if change.2.2 = PathChange.removed then some change.2.1 else none)) := by
  induction entryChanges generalizing acc with
  | nil => simp
  | cons c cs ih =>
    rw [List.foldl_cons, List.filterMap_cons, List.filterMap_cons]
    by_cases hc : c.2.2 = PathChange.removed
    · rw [if_pos hc, if_pos hc, if_pos hc, ih]
      simp
    · rw [if_neg hc, if_neg hc, if_neg hc]
      cases he : s.entryForId c.2.1 with
      | some entry =>
        rw [ih]
        simp
      | none =>
        rw [ih]
        simp

/-- C6: the delta builder's `updated_entries` is sorted by id and contains
exactly the wire encodings of entries resolved for non-Removed changes, and
its `removed_entries` is sorted and contains exactly the removed changes' ids
that do not also occur among the updated entries. -/
theorem c6_build_update (s : Snapshot)
    (entryChanges : List (EntryPath × Nat × PathChange)) (repoChanges : List RepoChange) :
    List.Sorted (fun a b => a.id ≤ b.id)
        (s.buildUpdate entryChanges repoChanges).updatedEntries ∧
      List.Sorted (· ≤ ·) (s.buildUpdate entryChanges repoChanges).removedEntries ∧
      (∀ pe, pe ∈ (s.buildUpdate entryChanges repoChanges).updatedEntries ↔
        ∃ c ∈ entryChanges, c.2.2 ≠ PathChange.removed ∧
          ∃ e, s.entryForId c.2.1 = some e ∧ pe = e.toProto) ∧
      (∀ r, r ∈ (s.buildUpdate entryChanges repoChanges).removedEntries ↔
        ((∃ c ∈ entryChanges, c.2.2 = PathChange.removed ∧ c.2.1 = r) ∧
          ¬ ∃ pe ∈ (s.buildUpdate entryChanges repoChanges).updatedEntries, pe.id = r)) := by
  have hstep := buildUpdate_step_spec s entryChanges ([], [])
  simp only [List.nil_append] at hstep
  have hupd : (s.buildUpdate entryChanges repoChanges).updatedEntries
      = sortOn ProtoEntry.id (entryChanges.filterMap (fun change =>
          if change.2.2 = PathChange.removed then none
          else (s.entryForId change.2.1).map Entry.toProto)) := by
    simp only [Snapshot.buildUpdate, hstep]
  have hrem : (s.buildUpdate entryChanges repoChanges).removedEntries
      = (sortOn id (entryChanges.filterMap (fun change =>
            if change.2.2 = PathChange.removed then some change.2.1 else none))).filter
          (fun entryId =>
            !(((s.buildUpdate entryChanges repoChanges).updatedEntries.map
                ProtoEntry.id).contains entryId)) := by
    simp only [Snapshot.buildUpdate, hstep]
  refine ⟨?_, ?_, ?_, ?_⟩
  · rw [hupd]
    exact sortOn_sorted _ _
  · rw [hrem]
    exact List.Sorted.filter _ (sortOn_sorted _ _)
  · intro pe
    rw [hupd, mem_sortOn, List.mem_filterMap]
    constructor
    · rintro ⟨c, hc, hsome⟩
      by_cases hr : c.2.2 = PathChange.removed
      · rw [if_pos hr] at hsome
        exact Option.noConfusion hsome
      · rw [if_neg hr] at hsome
        cases he : s.entryForId c.2.1 with
        | none => rw [he] at hsome; exact Option.noConfusion hsome
        | some e =>
          rw [he] at hsome
          exact ⟨c, hc, hr, e, he, (Option.some.inj hsome).symm⟩
    · rintro ⟨c, hc, hr, e, he, rfl⟩
      exact ⟨c, hc, by rw [if_neg hr, he]; rfl⟩
  · intro r
    rw [hrem, List.mem_filter, mem_sortOn, List.mem_filterMap]
    constructor
    · rintro ⟨⟨c, hc, hsome⟩, hnc⟩
      by_cases hr : c.2.2 = PathChange.removed
      · rw [if_pos hr] at hsome
        refine ⟨⟨c, hc, hr, Option.some.inj hsome⟩, ?_⟩
        rintro ⟨pe, hpe, hpid⟩
        have : ((s.buildUpdate entryChanges repoChanges).updatedEntries.map
            ProtoEntry.id).contains r = true := by
          rw [List.contains, List.elem_iff]
          exact List.mem_map.mpr ⟨pe, hpe, hpid⟩
        rw [this] at hnc
        exact Bool.noConfusion hnc
      · rw [if_neg hr] at hsome
        exact Option.noConfusion hsome
    · rintro ⟨⟨c, hc, hr, hcr⟩, hnpe⟩
      refine ⟨⟨c, hc, by rw [if_pos hr, hcr]⟩, ?_⟩
      by_cases hcon : ((s.buildUpdate entryChanges repoChanges).updatedEntries.map
          ProtoEntry.id).contains r = true
      · exfalso
        rw [List.contains, List.elem_iff] at hcon
        obtain ⟨pe, hpe, hpid⟩ := List.mem_map.mp hcon
        exact hnpe ⟨pe, hpe, hpid⟩
      · simpa using hcon

/-- `Snapshot::delete_entry` with an id absent from the identity index is the
identity and reports `None`. -/
theorem deleteEntry_none_spec (s : Snapshot) (entryId : Nat)
    (h : smGet PathEntry.id entryId s.entriesById = none) :
    s.deleteEntry entryId = (s, none) := by
  simp only [Snapshot.deleteEntry, h]

/-- `Snapshot::delete_entry` with a present id removes the contiguous run of
entries whose paths start with the recorded path — on a well-formed snapshot,
exactly the subtree — from both indices, and returns the recorded path. -/
theorem deleteEntry_some_spec (s : Snapshot) (entryId : Nat) (pe : PathEntry)
    (hp : smWF Entry.path s.entriesByPath) (hi : smWF PathEntry.id s.entriesById)
    (hag : agreeEntries s)
    (hpe : smGet PathEntry.id entryId s.entriesById = some pe) :
    (s.deleteEntry entryId).2 = some pe.path ∧
    (s.deleteEntry entryId).1.entriesByPath
      = s.entriesByPath.filter (fun e => !(underDir pe.path e.path)) ∧
    (s.deleteEntry entryId).1.entriesById
      = s.entriesById.filter (fun q => !(underDir pe.path q.path)) := by
  have hpeSome := smGet_eq_some hpe
  have hcl1 : List.Pairwise
      (fun a b : Entry =>
        decide (b.path < pe.path) = true → decide (a.path < pe.path) = true)
      s.entriesByPath := by
    refine hp.imp ?_
    intro a b hab hb
    exact decide_eq_true (lt_trans hab (of_decide_eq_true hb))
  have h2 := drop_takeWhile_length
    (fun e : Entry => decide (e.path < pe.path)) s.entriesByPath
  have h3 : s.entriesByPath.dropWhile (fun e => decide (e.path < pe.path))
      = s.entriesByPath.filter (fun e => !(decide (e.path < pe.path))) :=
    dropWhile_eq_filter_not_of_closed hcl1
  have hrestwf : smWF Entry.path
      (s.entriesByPath.dropWhile fun e => decide (e.path < pe.path)) :=
    List.Pairwise.sublist (List.dropWhile_sublist _) hp
  have hrestge : ∀ e ∈ s.entriesByPath.dropWhile
      (fun e => decide (e.path < pe.path)), ¬ e.path < pe.path := by
    intro e he
    rw [h3] at he
    have hne := (List.mem_filter.mp he).2
    simpa using hne
  have hcl2 : List.Pairwise
      (fun a b : Entry =>
        underDir pe.path b.path = true → underDir pe.path a.path = true)
      (s.entriesByPath.dropWhile fun e => decide (e.path < pe.path)) := by
    refine List.Pairwise.imp_of_mem ?_ hrestwf
    intro a b ha hb hab hub
    exact underDir_iff.mpr (prefix_of_between (le_of_not_lt (hrestge a ha))
      (le_of_lt hab) (underDir_iff.mp hub))
  have h4 : (s.entriesByPath.dropWhile
        (fun e => decide (e.path < pe.path))).takeWhile
          (fun e => underDir pe.path e.path)
      = (s.entriesByPath.dropWhile (fun e => decide (e.path < pe.path))).filter
          (fun e => underDir pe.path e.path) :=
    takeWhile_eq_filter_of_closed hcl2
  have h5 := drop_takeWhile_length (fun e : Entry => underDir pe.path e.path)
    (s.entriesByPath.dropWhile fun e => decide (e.path < pe.path))
  have h6 : (s.entriesByPath.dropWhile
        (fun e => decide (e.path < pe.path))).dropWhile
          (fun e => underDir pe.path e.path)
      = (s.entriesByPath.dropWhile (fun e => decide (e.path < pe.path))).filter
          (fun e => !(underDir pe.path e.path)) :=
    dropWhile_eq_filter_not_of_closed hcl2
  have hQtake : (s.entriesByPath.takeWhile
        (fun e => decide (e.path < pe.path))).filter
          (fun e => !(underDir pe.path e.path))
      = s.entriesByPath.takeWhile (fun e => decide (e.path < pe.path)) := by
    refine List.filter_eq_self.mpr ?_
    intro e he
    have hPe := List.mem_takeWhile_imp he
    have hlt : e.path < pe.path := of_decide_eq_true hPe
    cases hU : underDir pe.path e.path with
    | false => rfl
    | true =>
      exact absurd (le_of_underDir (underDir_iff.mp hU)) (not_le_of_lt hlt)
  have hbp : s.entriesByPath.filter (fun e => !(underDir pe.path e.path))
      = s.entriesByPath.takeWhile (fun e => decide (e.path < pe.path))
        ++ (s.entriesByPath.dropWhile
            (fun e => decide (e.path < pe.path))).dropWhile
              (fun e => underDir pe.path e.path) := by
    conv_lhs => rw [← List.takeWhile_append_dropWhile
      (fun e : Entry => decide (e.path < pe.path)) s.entriesByPath]
    rw [List.filter_append, hQtake, h6]
  simp only [Snapshot.deleteEntry, hpe]
  refine ⟨trivial, ?_, ?_⟩
  · rw [h2, h5, hbp]
  · rw [h2]
    have hfold := foldl_smRemove_eq_filter
      (((s.entriesByPath.dropWhile
          (fun e => decide (e.path < pe.path))).takeWhile
            (fun e => underDir pe.path e.path)).map Entry.id)
      (m := smRemove PathEntry.id entryId s.entriesById)
      (smWF_smRemove (k := entryId) hi)
    rw [List.foldl_map] at hfold
    rw [hfold, smRemove_eq_filter hi entryId, List.filter_filter]
    refine List.filter_congr ?_
    intro q hq
    cases hU : underDir pe.path q.path with
    | true =>
      have hqid : (q.path, q.id) ∈ idPairs s := List.mem_map_of_mem _ hq
      obtain ⟨e, heL, hee⟩ := List.mem_map.mp ((hag (q.path, q.id)).mpr hqid)
      rw [Prod.mk.injEq] at hee
      obtain ⟨hep, hei⟩ := hee
      have heRest : e ∈ s.entriesByPath.dropWhile
          (fun e => decide (e.path < pe.path)) := by
        rw [h3]
        refine List.mem_filter.mpr ⟨heL, ?_⟩
        simp only [Bool.not_eq_true', decide_eq_false_iff_not]
        exact not_lt_of_le (le_of_underDir (underDir_iff.mp (hep ▸ hU)))
      have heSub : e ∈ (s.entriesByPath.dropWhile
          (fun e => decide (e.path < pe.path))).takeWhile
            (fun e => underDir pe.path e.path) := by
        rw [h4]
        exact List.mem_filter.mpr ⟨heRest, hep ▸ hU⟩
      have hin : q.id ∈ ((s.entriesByPath.dropWhile
          (fun e => decide (e.path < pe.path))).takeWhile
            (fun e => underDir pe.path e.path)).map Entry.id :=
        List.mem_map.mpr ⟨e, heSub, hei⟩
      simp [hin]
    | false =>
      have hne : ¬ q.id = entryId := by
        intro hqe
        have hqpe : q = pe := smWF_key_unique hi hq hpeSome.1
          (by rw [hqe, hpeSome.2])
        rw [hqpe, underDir_refl] at hU
        exact Bool.noConfusion hU
      have hnin : q.id ∉ ((s.entriesByPath.dropWhile
          (fun e => decide (e.path < pe.path))).takeWhile
            (fun e => underDir pe.path e.path)).map Entry.id := by
        intro hin
        obtain ⟨e, heSub, hei⟩ := List.mem_map.mp hin
        rw [h4] at heSub
        obtain ⟨heRest, heU⟩ := List.mem_filter.mp heSub
        have heL : e ∈ s.entriesByPath := by
          rw [h3] at heRest
          exact (List.mem_filter.mp heRest).1
        have hepr : (e.path, e.id) ∈ entryPairs s := List.mem_map_of_mem _ heL
        obtain ⟨r, hrMem, hre⟩ := List.mem_map.mp ((hag (e.path, e.id)).mp hepr)
        rw [Prod.mk.injEq] at hre
        obtain ⟨hrp, hri⟩ := hre
        have hrq : r = q := smWF_key_unique hi hrMem hq (by rw [hri, hei])
        rw [← hrq, hrp] at hU
        rw [heU] at hU
        exact Bool.noConfusion hU
      simp [hne, hnin]

/-- C10: on a well-formed snapshot, `Snapshot::delete_entry` with an id absent
from the identity index returns `None` and leaves the snapshot unchanged;
with a present id it returns the recorded path and removes exactly the
entries whose paths start with that path — the whole subtree — from both the
path tree and the identity index. -/
theorem c10_delete_entry (s : Snapshot) (entryId : Nat) (hwf : s.wf) :
    (smGet PathEntry.id entryId s.entriesById = none →
      s.deleteEntry entryId = (s, none)) ∧
    ∀ pe, smGet PathEntry.id entryId s.entriesById = some pe →
      (s.deleteEntry entryId).2 = some pe.path ∧
      (s.deleteEntry entryId).1.entriesByPath
        = s.entriesByPath.filter (fun e => !(underDir pe.path e.path)) ∧
      (s.deleteEntry entryId).1.entriesById
        = s.entriesById.filter (fun q => !(underDir pe.path q.path)) :=
  ⟨deleteEntry_none_spec s entryId,
    fun pe hpe => deleteEntry_some_spec s entryId pe hwf.1 hwf.2.1 hwf.2.2 hpe⟩

/-- Witness for C10: deleting entry 1 (path `a`) from the concrete snapshot
returns the path `a` and filters the `a` subtree out of both indices. -/
theorem c10_delete_entry_witness :
    (c10Snap.deleteEntry 1).2 = some [pc "a"] ∧
    (c10Snap.deleteEntry 1).1.entriesByPath
      = c10Snap.entriesByPath.filter (fun e => !(underDir [pc "a"] e.path)) ∧
    (c10Snap.deleteEntry 1).1.entriesById
      = c10Snap.entriesById.filter (fun q => !(underDir [pc "a"] q.path)) := by
  have hwf : c10Snap.wf := by
    refine ⟨?_, ?_, ?_⟩
    · unfold smWF c10Snap c10EntryA c10EntryAB c10EntryC sampleEntry
      decide
    · unfold smWF c10Snap
      decide
    · intro pr
      rw [show entryPairs c10Snap = idPairs c10Snap from by decide]
  have h := (c10_delete_entry c10Snap 1 hwf).2
    ⟨1, [pc "a"], false, 0⟩ (by decide)
  exact h

/-! ### C1: agreement of the two entry indices -/

theorem agree_iff_lookupAgree {s : Snapshot}
    (hp : smWF Entry.path s.entriesByPath)
    (hi : smWF PathEntry.id s.entriesById) :
    agreeEntries s ↔ lookupAgree s := by
  constructor
  · intro hag p i
    constructor
    · rintro ⟨e, he, hei⟩
      obtain ⟨heMem, heKey⟩ := smGet_eq_some he
      have hpr : (p, i) ∈ entryPairs s := by
        have hm : (e.path, e.id) ∈ entryPairs s :=
          List.mem_map_of_mem (fun e : Entry => (e.path, e.id)) heMem
        rw [heKey, hei] at hm
        exact hm
      obtain ⟨q, hqMem, hq⟩ := List.mem_map.mp ((hag (p, i)).mp hpr)
      rw [Prod.mk.injEq] at hq
      refine ⟨q, ?_, hq.1⟩
      rw [← hq.2]
      exact smGet_of_mem hi hqMem
    · rintro ⟨q, hq, hqp⟩
      obtain ⟨hqMem, hqKey⟩ := smGet_eq_some hq
      have hpr : (p, i) ∈ idPairs s := by
        have hm : (q.path, q.id) ∈ idPairs s :=
          List.mem_map_of_mem (fun q : PathEntry => (q.path, q.id)) hqMem
        rw [hqp, hqKey] at hm
        exact hm
      obtain ⟨e, heMem, he⟩ := List.mem_map.mp ((hag (p, i)).mpr hpr)
      rw [Prod.mk.injEq] at he
      refine ⟨e, ?_, he.2⟩
      rw [← he.1]
      exact smGet_of_mem hp heMem
  · intro hla pr
    obtain ⟨p, i⟩ := pr
    constructor
    · intro hmem
      obtain ⟨e, heMem, he⟩ := List.mem_map.mp hmem
      rw [Prod.mk.injEq] at he
      have hget : smGet Entry.path p s.entriesByPath = some e := by
        rw [← he.1]
        exact smGet_of_mem hp heMem
      obtain ⟨q, hq, hqp⟩ := (hla p i).mp ⟨e, hget, he.2⟩
      obtain ⟨hqMem, hqKey⟩ := smGet_eq_some hq
      refine List.mem_map.mpr ⟨q, hqMem, ?_⟩
      rw [Prod.mk.injEq]
      exact ⟨hqp, hqKey⟩
    · intro hmem
      obtain ⟨q, hqMem, hq⟩ := List.mem_map.mp hmem
      rw [Prod.mk.injEq] at hq
      have hget : smGet PathEntry.id i s.entriesById = some q := by
        rw [← hq.2]
        exact smGet_of_mem hi hqMem
      obtain ⟨e, he, hei⟩ := (hla p i).mpr ⟨q, hget, hq.1⟩
      obtain ⟨heMem, heKey⟩ := smGet_eq_some he
      refine List.mem_map.mpr ⟨e, heMem, ?_⟩
      rw [Prod.mk.injEq]
      exact ⟨heKey, hei⟩

theorem Snapshot.new_wf (rootName : String) (absPath : EntryPath) :
    (Snapshot.new rootName absPath).wf := by
  refine ⟨List.Pairwise.nil, List.Pairwise.nil, ?_⟩
  intro pr
  simp [entryPairs, idPairs, Snapshot.new]

/-- `Snapshot::insert_entry` preserves well-formedness when the target path is
not occupied by a different id. -/
theorem insertEntry_wf {s : Snapshot} (hwf : s.wf) (protoEntry : ProtoEntry)
    (inc : EntryPath → Bool) (hok : s.insertEntryOk protoEntry inc) :
    (s.insertEntry protoEntry inc).1.wf := by
  obtain ⟨hp, hi, hag⟩ := hwf
  have hla := (agree_iff_lookupAgree hp hi).mp hag
  cases hold : smGet PathEntry.id (Entry.fromProto inc protoEntry).id s.entriesById with
  | none =>
    have hEq : (s.insertEntry protoEntry inc).1
        = { s with
            entriesByPath :=
              smInsert Entry.path (Entry.fromProto inc protoEntry) s.entriesByPath
            entriesById := smInsert PathEntry.id
              { id := (Entry.fromProto inc protoEntry).id
                path := (Entry.fromProto inc protoEntry).path
                isIgnored := (Entry.fromProto inc protoEntry).isIgnored
                scanId := 0 } s.entriesById } := by
      simp only [Snapshot.insertEntry, hold]
    rw [hEq]
    have hla' : ∀ (p : EntryPath) (i : Nat),
        (∃ e, smGet Entry.path p
            (smInsert Entry.path (Entry.fromProto inc protoEntry) s.entriesByPath)
          = some e ∧ e.id = i) ↔
        (∃ q, smGet PathEntry.id i (smInsert PathEntry.id
              { id := (Entry.fromProto inc protoEntry).id
                path := (Entry.fromProto inc protoEntry).path
                isIgnored := (Entry.fromProto inc protoEntry).isIgnored
                scanId := 0 } s.entriesById)
          = some q ∧ q.path = p) := by
      intro p i
      rw [smGet_smInsert, smGet_smInsert]
      by_cases hpp : (Entry.fromProto inc protoEntry).path = p
      · rw [if_pos hpp]
        by_cases hii : (Entry.fromProto inc protoEntry).id = i
        · rw [if_pos hii]
          constructor
          · intro _
            exact ⟨_, rfl, hpp⟩
          · intro _
            exact ⟨_, rfl, hii⟩
        · rw [if_neg hii]
          constructor
          · rintro ⟨e2, he2, hei⟩
            exfalso
            have he2E : e2 = Entry.fromProto inc protoEntry := (Option.some.inj he2).symm
            rw [he2E] at hei
            exact hii hei
          · rintro ⟨q, hq, hqp⟩
            exfalso
            obtain ⟨e2, hge2, hid2⟩ := (hla p i).mpr ⟨q, hq, hqp⟩
            have hid3 := hok e2 (by rw [hpp]; exact hge2)
            apply hii
            show protoEntry.id = i
            rw [← hid3]
            exact hid2
      · rw [if_neg hpp]
        by_cases hii : (Entry.fromProto inc protoEntry).id = i
        · rw [if_pos hii]
          constructor
          · rintro ⟨e2, hge2, hid2⟩
            exfalso
            obtain ⟨q, hq, hqp⟩ := (hla p i).mp ⟨e2, hge2, hid2⟩
            rw [← hii, hold] at hq
            exact Option.noConfusion hq
          · rintro ⟨q, hq, hqp⟩
            exfalso
            have hqe : q = { id := (Entry.fromProto inc protoEntry).id
                             path := (Entry.fromProto inc protoEntry).path
                             isIgnored := (Entry.fromProto inc protoEntry).isIgnored
                             scanId := 0 } := (Option.some.inj hq).symm
            apply hpp
            rw [← hqp, hqe]
        · rw [if_neg hii]
          exact hla p i
    exact ⟨smWF_smInsert hp, smWF_smInsert hi,
      (agree_iff_lookupAgree (smWF_smInsert hp) (smWF_smInsert hi)).mpr hla'⟩
  | some old =>
    obtain ⟨holdMem, holdKey⟩ := smGet_eq_some hold
    have hEq : (s.insertEntry protoEntry inc).1
        = { s with
            entriesByPath := smInsert Entry.path (Entry.fromProto inc protoEntry)
              (smRemove Entry.path old.path s.entriesByPath)
            entriesById := smInsert PathEntry.id
              { id := (Entry.fromProto inc protoEntry).id
                path := (Entry.fromProto inc protoEntry).path
                isIgnored := (Entry.fromProto inc protoEntry).isIgnored
                scanId := 0 } s.entriesById } := by
      simp only [Snapshot.insertEntry, hold]
    rw [hEq]
    have hla' : ∀ (p : EntryPath) (i : Nat),
        (∃ e, smGet Entry.path p
            (smInsert Entry.path (Entry.fromProto inc protoEntry)
              (smRemove Entry.path old.path s.entriesByPath))
          = some e ∧ e.id = i) ↔
        (∃ q, smGet PathEntry.id i (smInsert PathEntry.id
              { id := (Entry.fromProto inc protoEntry).id
                path := (Entry.fromProto inc protoEntry).path
                isIgnored := (Entry.fromProto inc protoEntry).isIgnored
                scanId := 0 } s.entriesById)
          = some q ∧ q.path = p) := by
      intro p i
      rw [smGet_smInsert, smGet_smInsert]
      by_cases hpp : (Entry.fromProto inc protoEntry).path = p
      · rw [if_pos hpp]
        by_cases hii : (Entry.fromProto inc protoEntry).id = i
        · rw [if_pos hii]
          constructor
          · intro _
            exact ⟨_, rfl, hpp⟩
          · intro _
            exact ⟨_, rfl, hii⟩
        · rw [if_neg hii]
          constructor
          · rintro ⟨e2, he2, hei⟩
            exfalso
            have he2E : e2 = Entry.fromProto inc protoEntry := (Option.some.inj he2).symm
            rw [he2E] at hei
            exact hii hei
          · rintro ⟨q, hq, hqp⟩
            exfalso
            obtain ⟨e2, hge2, hid2⟩ := (hla p i).mpr ⟨q, hq, hqp⟩
            have hid3 := hok e2 (by rw [hpp]; exact hge2)
            apply hii
            show protoEntry.id = i
            rw [← hid3]
            exact hid2
      · rw [if_neg hpp]
        by_cases hii : (Entry.fromProto inc protoEntry).id = i
        · rw [if_pos hii]
          constructor
          · rintro ⟨e2, hge2, hid2⟩
            exfalso
            by_cases hpo : p = old.path
            · rw [hpo, smGet_smRemove_self hp] at hge2
              exact Option.noConfusion hge2
            · rw [smGet_smRemove_ne hpo] at hge2
              obtain ⟨q, hq, hqp⟩ := (hla p i).mp ⟨e2, hge2, hid2⟩
              rw [← hii, hold] at hq
              have hqold : old = q := Option.some.inj hq
              rw [← hqold] at hqp
              exact hpo hqp.symm
          · rintro ⟨q, hq, hqp⟩
            exfalso
            have hqe : q = { id := (Entry.fromProto inc protoEntry).id
                             path := (Entry.fromProto inc protoEntry).path
                             isIgnored := (Entry.fromProto inc protoEntry).isIgnored
                             scanId := 0 } := (Option.some.inj hq).symm
            apply hpp
            rw [← hqp, hqe]
        · rw [if_neg hii]
          by_cases hpo : p = old.path
          · constructor
            · rintro ⟨e2, hge2, -⟩
              exfalso
              rw [hpo, smGet_smRemove_self hp] at hge2
              exact Option.noConfusion hge2
            · rintro ⟨q, hq, hqp⟩
              exfalso
              obtain ⟨e2, hge2, hid2⟩ := (hla p i).mpr ⟨q, hq, hqp⟩
              obtain ⟨e3, hge3, hid3⟩ := (hla old.path (Entry.fromProto inc protoEntry).id).mpr
                ⟨old, hold, rfl⟩
              rw [hpo] at hge2
              have he23 : e2 = e3 := by
                rw [hge2] at hge3
                exact Option.some.inj hge3
              rw [he23, hid3] at hid2
              exact hii hid2
          · rw [smGet_smRemove_ne hpo]
            exact hla p i
    exact ⟨smWF_smInsert (smWF_smRemove hp), smWF_smInsert hi,
      (agree_iff_lookupAgree (smWF_smInsert (smWF_smRemove hp))
        (smWF_smInsert hi)).mpr hla'⟩

theorem localInsertAdjust_id (s : Snapshot) (entry : Entry) :
    (localInsertAdjust s entry).id = entry.id := by
  unfold localInsertAdjust
  by_cases hk : entry.kind = EntryKind.pendingDir
  · rw [if_pos hk]
    cases smGet Entry.path entry.path s.entriesByPath <;> rfl
  · rw [if_neg hk]

theorem localInsertAdjust_path (s : Snapshot) (entry : Entry) :
    (localInsertAdjust s entry).path = entry.path := by
  unfold localInsertAdjust
  by_cases hk : entry.kind = EntryKind.pendingDir
  · rw [if_pos hk]
    cases smGet Entry.path entry.path s.entriesByPath <;> rfl
  · rw [if_neg hk]

/-- The index manipulation shared by `LocalSnapshot::insert_entry` preserves
well-formedness when the entry's id is not recorded under a different path. -/
theorem localInsert_core_wf (s : Snapshot) (e : Entry) (sid : Nat)
    (hp : smWF Entry.path s.entriesByPath) (hi : smWF PathEntry.id s.entriesById)
    (hag : agreeEntries s)
    (hok : ∀ pe, smGet PathEntry.id e.id s.entriesById = some pe → pe.path = e.path) :
    Snapshot.wf { s with
      entriesByPath := smInsert Entry.path e s.entriesByPath
      entriesById := smInsert PathEntry.id
        { id := e.id, path := e.path, isIgnored := e.isIgnored, scanId := sid }
        (match smGet Entry.path e.path s.entriesByPath with
         | some removedEntry =>
           if removedEntry.id ≠ e.id then
             smRemove PathEntry.id removedEntry.id s.entriesById
           else s.entriesById
         | none => s.entriesById) } := by
  have hla := (agree_iff_lookupAgree hp hi).mp hag
  cases hrm : smGet Entry.path e.path s.entriesByPath with
  | none =>
    simp only [hrm]
    have hla' : ∀ (p : EntryPath) (i : Nat),
        (∃ e2, smGet Entry.path p (smInsert Entry.path e s.entriesByPath)
          = some e2 ∧ e2.id = i) ↔
        (∃ q, smGet PathEntry.id i (smInsert PathEntry.id
              { id := e.id, path := e.path, isIgnored := e.isIgnored, scanId := sid }
              s.entriesById)
          = some q ∧ q.path = p) := by
      intro p i
      rw [smGet_smInsert, smGet_smInsert]
      by_cases hpp : e.path = p
      · rw [if_pos hpp]
        by_cases hii : e.id = i
        · rw [if_pos hii]
          exact ⟨fun _ => ⟨_, rfl, hpp⟩, fun _ => ⟨_, rfl, hii⟩⟩
        · rw [if_neg hii]
          constructor
          · rintro ⟨e2, he2, hei⟩
            exfalso
            have he2e : e2 = e := (Option.some.inj he2).symm
            rw [he2e] at hei
            exact hii hei
          · rintro ⟨q, hq, hqp⟩
            exfalso
            obtain ⟨e2, hge2, -⟩ := (hla p i).mpr ⟨q, hq, hqp⟩
            rw [← hpp, hrm] at hge2
            exact Option.noConfusion hge2
      · rw [if_neg hpp]
        by_cases hii : e.id = i
        · rw [if_pos hii]
          constructor
          · rintro ⟨e2, hge2, hid2⟩
            exfalso
            obtain ⟨q, hq, hqp⟩ := (hla p i).mp ⟨e2, hge2, hid2⟩
            rw [← hii] at hq
            have := hok q hq
            rw [this] at hqp
            exact hpp hqp
          · rintro ⟨q, hq, hqp⟩
            exfalso
            have hqe : q = { id := e.id, path := e.path, isIgnored := e.isIgnored
                             scanId := sid } := (Option.some.inj hq).symm
            apply hpp
            rw [← hqp, hqe]
        · rw [if_neg hii]
          exact hla p i
    exact ⟨smWF_smInsert hp, smWF_smInsert hi,
      (agree_iff_lookupAgree (smWF_smInsert hp) (smWF_smInsert hi)).mpr hla'⟩
  | some rm =>
    obtain ⟨hrmMem, hrmKey⟩ := smGet_eq_some hrm
    simp only [hrm]
    by_cases hrme : rm.id ≠ e.id
    · rw [if_pos hrme]
      have hla' : ∀ (p : EntryPath) (i : Nat),
          (∃ e2, smGet Entry.path p (smInsert Entry.path e s.entriesByPath)
            = some e2 ∧ e2.id = i) ↔
          (∃ q, smGet PathEntry.id i (smInsert PathEntry.id
                { id := e.id, path := e.path, isIgnored := e.isIgnored, scanId := sid }
                (smRemove PathEntry.id rm.id s.entriesById))
            = some q ∧ q.path = p) := by
        intro p i
        rw [smGet_smInsert, smGet_smInsert]
        by_cases hpp : e.path = p
        · rw [if_pos hpp]
          by_cases hii : e.id = i
          · rw [if_pos hii]
            exact ⟨fun _ => ⟨_, rfl, hpp⟩, fun _ => ⟨_, rfl, hii⟩⟩
          · rw [if_neg hii]
            constructor
            · rintro ⟨e2, he2, hei⟩
              exfalso
              have he2e : e2 = e := (Option.some.inj he2).symm
              rw [he2e] at hei
              exact hii hei
            · rintro ⟨q, hq, hqp⟩
              exfalso
              by_cases hirm : i = rm.id
              · rw [hirm, smGet_smRemove_self hi] at hq
                exact Option.noConfusion hq
              · rw [smGet_smRemove_ne hirm] at hq
                obtain ⟨e2, hge2, hid2⟩ := (hla p i).mpr ⟨q, hq, hqp⟩
                rw [← hpp, hrm] at hge2
                have he2rm : rm = e2 := Option.some.inj hge2
                rw [← he2rm] at hid2
                exact hirm hid2.symm
        · rw [if_neg hpp]
          by_cases hii : e.id = i
          · rw [if_pos hii]
            constructor
            · rintro ⟨e2, hge2, hid2⟩
              exfalso
              obtain ⟨q, hq, hqp⟩ := (hla p i).mp ⟨e2, hge2, hid2⟩
              rw [← hii] at hq
              have := hok q hq
              rw [this] at hqp
              exact hpp hqp
            · rintro ⟨q, hq, hqp⟩
              exfalso
              have hqe : q = { id := e.id, path := e.path, isIgnored := e.isIgnored
                               scanId := sid } := (Option.some.inj hq).symm
              apply hpp
              rw [← hqp, hqe]
          · rw [if_neg hii]
            by_cases hirm : i = rm.id
            · constructor
              · rintro ⟨e2, hge2, hid2⟩
                exfalso
                obtain ⟨q2, hq2, hq2p⟩ := (hla p i).mp ⟨e2, hge2, hid2⟩
                obtain ⟨q3, hq3, hq3p⟩ := (hla e.path rm.id).mp ⟨rm, hrm, rfl⟩
                rw [hirm] at hq2
                rw [hq2] at hq3
                have hq23 : q2 = q3 := Option.some.inj hq3
                rw [hq23, hq3p] at hq2p
                exact hpp hq2p
              · rintro ⟨q, hq, hqp⟩
                exfalso
                rw [hirm, smGet_smRemove_self hi] at hq
                exact Option.noConfusion hq
            · rw [smGet_smRemove_ne hirm]
              exact hla p i
      exact ⟨smWF_smInsert hp, smWF_smInsert (smWF_smRemove hi),
        (agree_iff_lookupAgree (smWF_smInsert hp)
          (smWF_smInsert (smWF_smRemove hi))).mpr hla'⟩
    · rw [if_neg hrme]
      rw [not_not] at hrme
      have hla' : ∀ (p : EntryPath) (i : Nat),
          (∃ e2, smGet Entry.path p (smInsert Entry.path e s.entriesByPath)
            = some e2 ∧ e2.id = i) ↔
          (∃ q, smGet PathEntry.id i (smInsert PathEntry.id
                { id := e.id, path := e.path, isIgnored := e.isIgnored, scanId := sid }
                s.entriesById)
            = some q ∧ q.path = p) := by
        intro p i
        rw [smGet_smInsert, smGet_smInsert]
        by_cases hpp : e.path = p
        · rw [if_pos hpp]
          by_cases hii : e.id = i
          · rw [if_pos hii]
            exact ⟨fun _ => ⟨_, rfl, hpp⟩, fun _ => ⟨_, rfl, hii⟩⟩
          · rw [if_neg hii]
            constructor
            · rintro ⟨e2, he2, hei⟩
              exfalso
              have he2e : e2 = e := (Option.some.inj he2).symm
              rw [he2e] at hei
              exact hii hei
            · rintro ⟨q, hq, hqp⟩
              exfalso
              obtain ⟨e2, hge2, hid2⟩ := (hla p i).mpr ⟨q, hq, hqp⟩
              rw [← hpp, hrm] at hge2
              have he2rm : rm = e2 := Option.some.inj hge2
              rw [← he2rm, hrme] at hid2
              exact hii hid2
        · rw [if_neg hpp]
          by_cases hii : e.id = i
          · rw [if_pos hii]
            constructor
            · rintro ⟨e2, hge2, hid2⟩
              exfalso
              obtain ⟨q, hq, hqp⟩ := (hla p i).mp ⟨e2, hge2, hid2⟩
              rw [← hii] at hq
              have := hok q hq
              rw [this] at hqp
              exact hpp hqp
            · rintro ⟨q, hq, hqp⟩
              exfalso
              have hqe : q = { id := e.id, path := e.path, isIgnored := e.isIgnored
                               scanId := sid } := (Option.some.inj hq).symm
              apply hpp
              rw [← hqp, hqe]
          · rw [if_neg hii]
            exact hla p i
      exact ⟨smWF_smInsert hp, smWF_smInsert hi,
        (agree_iff_lookupAgree (smWF_smInsert hp) (smWF_smInsert hi)).mpr hla'⟩

/-- `LocalSnapshot::insert_entry` preserves well-formedness when the entry's
id is not recorded under a different path. -/
theorem localInsertEntry_wf {s : Snapshot} (hwf : s.wf) (entry : Entry)
    (hok : s.localInsertEntryOk entry) : (s.localInsertEntry entry).1.wf := by
  obtain ⟨hp, hi, hag⟩ := hwf
  have hok' : ∀ pe, smGet PathEntry.id (localInsertAdjust s entry).id s.entriesById
      = some pe → pe.path = (localInsertAdjust s entry).path := by
    rw [localInsertAdjust_id, localInsertAdjust_path]
    exact hok
  exact localInsert_core_wf s (localInsertAdjust s entry) s.scanId hp hi hag hok'

/-- Filtering both indices by the same predicate on the recorded path
preserves the agreement of their `(path, id)` pairs. -/
theorem agree_filter_pathpred {s : Snapshot} (hag : agreeEntries s)
    (P : EntryPath → Bool) :
    ∀ pr : EntryPath × Nat,
      pr ∈ (s.entriesByPath.filter fun e => P e.path).map
        (fun e : Entry => (e.path, e.id)) ↔
      pr ∈ (s.entriesById.filter fun q => P q.path).map
        (fun q : PathEntry => (q.path, q.id)) := by
  intro pr
  constructor
  · intro hmem
    obtain ⟨e, heMem, hepr⟩ := List.mem_map.mp hmem
    obtain ⟨heL, hPe⟩ := List.mem_filter.mp heMem
    obtain ⟨q, hqMem, hqpr⟩ := List.mem_map.mp
      ((hag _).mp (List.mem_map_of_mem (fun e : Entry => (e.path, e.id)) heL))
    simp only [Prod.mk.injEq] at hqpr
    refine List.mem_map.mpr ⟨q, List.mem_filter.mpr ⟨hqMem, ?_⟩, ?_⟩
    · show P q.path = true
      rw [hqpr.1]
      exact hPe
    · rw [← hepr]
      show (q.path, q.id) = (e.path, e.id)
      rw [hqpr.1, hqpr.2]
  · intro hmem
    obtain ⟨q, hqMem, hqpr⟩ := List.mem_map.mp hmem
    obtain ⟨hqL, hPq⟩ := List.mem_filter.mp hqMem
    obtain ⟨e, heMem, hepr⟩ := List.mem_map.mp
      ((hag _).mpr (List.mem_map_of_mem (fun q : PathEntry => (q.path, q.id)) hqL))
    simp only [Prod.mk.injEq] at hepr
    refine List.mem_map.mpr ⟨e, List.mem_filter.mpr ⟨heMem, ?_⟩, ?_⟩
    · show P e.path = true
      rw [hepr.1]
      exact hPq
    · rw [← hqpr]
      show (e.path, e.id) = (q.path, q.id)
      rw [hepr.1, hepr.2]

/-- `Snapshot::delete_entry` preserves well-formedness. -/
theorem deleteEntry_wf {s : Snapshot} (hwf : s.wf) (entryId : Nat) :
    (s.deleteEntry entryId).1.wf := by
  obtain ⟨hp, hi, hag⟩ := hwf
  cases hpe : smGet PathEntry.id entryId s.entriesById with
  | none =>
    rw [deleteEntry_none_spec s entryId hpe]
    exact ⟨hp, hi, hag⟩
  | some pe =>
    obtain ⟨-, hbp, hbi⟩ := deleteEntry_some_spec s entryId pe hp hi hag hpe
    refine ⟨?_, ?_, ?_⟩
    · rw [hbp]
      exact smWF_filter _ hp
    · rw [hbi]
      exact smWF_filter _ hi
    · intro pr
      have hgoal := agree_filter_pathpred hag
        (fun p => !(underDir pe.path p)) pr
      rw [entryPairs, idPairs, hbp, hbi]
      exact hgoal

theorem remFold_editInserts_fst (s : Snapshot) (rids : List Nat)
    (acc : List (MapEdit Entry EntryPath) × List (MapEdit PathEntry Nat)) :
    editInserts (rids.foldl (entryEditsRemStep s) acc).1 = editInserts acc.1 := by
  induction rids generalizing acc with
  | nil => rfl
  | cons rid rids ih =>
    rw [List.foldl_cons, ih]
    cases h : s.entryForId rid with
    | some e => simp [entryEditsRemStep, h, editInserts_append, editInserts]
    | none => simp [entryEditsRemStep, h]

theorem remFold_rems_fst (s : Snapshot) (rids : List Nat)
    (acc : List (MapEdit Entry EntryPath) × List (MapEdit PathEntry Nat)) :
    editRemovedKeys (rids.foldl (entryEditsRemStep s) acc).1
      = editRemovedKeys acc.1
        ++ rids.filterMap (fun rid => (s.entryForId rid).map Entry.path) := by
  induction rids generalizing acc with
  | nil => simp
  | cons rid rids ih =>
    rw [List.foldl_cons, ih]
    cases h : s.entryForId rid with
    | some e =>
      simp [entryEditsRemStep, h, editRemovedKeys_append, editRemovedKeys,
        List.filterMap_cons]
    | none => simp [entryEditsRemStep, h, List.filterMap_cons]

theorem remFold_editInserts_snd (s : Snapshot) (rids : List Nat)
    (acc : List (MapEdit Entry EntryPath) × List (MapEdit PathEntry Nat)) :
    editInserts (rids.foldl (entryEditsRemStep s) acc).2 = editInserts acc.2 := by
  induction rids generalizing acc with
  | nil => rfl
  | cons rid rids ih =>
    rw [List.foldl_cons, ih]
    simp [entryEditsRemStep, editInserts_append, editInserts]

theorem remFold_rems_snd (s : Snapshot) (rids : List Nat)
    (acc : List (MapEdit Entry EntryPath) × List (MapEdit PathEntry Nat)) :
    editRemovedKeys (rids.foldl (entryEditsRemStep s) acc).2
      = editRemovedKeys acc.2 ++ rids := by
  induction rids generalizing acc with
  | nil => simp
  | cons rid rids ih =>
    rw [List.foldl_cons, ih]
    simp [entryEditsRemStep, editRemovedKeys_append, editRemovedKeys]

theorem updFold_editInserts_fst (s : Snapshot) (inc : EntryPath → Bool)
    (ups : List ProtoEntry)
    (acc : List (MapEdit Entry EntryPath) × List (MapEdit PathEntry Nat)) :
    editInserts (ups.foldl (entryEditsUpdStep s inc) acc).1
      = editInserts acc.1 ++ ups.map (Entry.fromProto inc) := by
  induction ups generalizing acc with
  | nil => simp
  | cons pe ups ih =>
    rw [List.foldl_cons, ih]
    cases h : smGet PathEntry.id (Entry.fromProto inc pe).id s.entriesById with
    | some q => simp [entryEditsUpdStep, h, editInserts_append, editInserts]
    | none => simp [entryEditsUpdStep, h, editInserts_append, editInserts]

theorem updFold_rems_fst (s : Snapshot) (inc : EntryPath → Bool)
    (ups : List ProtoEntry)
    (acc : List (MapEdit Entry EntryPath) × List (MapEdit PathEntry Nat)) :
    editRemovedKeys (ups.foldl (entryEditsUpdStep s inc) acc).1
      = editRemovedKeys acc.1
        ++ ups.filterMap (fun pe =>
             (smGet PathEntry.id (Entry.fromProto inc pe).id s.entriesById).map
               PathEntry.path) := by
  induction ups generalizing acc with
  | nil => simp
  | cons pe ups ih =>
    rw [List.foldl_cons, ih]
    cases h : smGet PathEntry.id (Entry.fromProto inc pe).id s.entriesById with
    | some q =>
      simp [entryEditsUpdStep, h, editRemovedKeys_append, editRemovedKeys,
        editInserts, List.filterMap_cons]
    | none =>
      simp [entryEditsUpdStep, h, editRemovedKeys_append, editRemovedKeys,
        List.filterMap_cons]

theorem updFold_editInserts_snd (s : Snapshot) (inc : EntryPath → Bool)
    (ups : List ProtoEntry)
    (acc : List (MapEdit Entry EntryPath) × List (MapEdit PathEntry Nat)) :
    editInserts (ups.foldl (entryEditsUpdStep s inc) acc).2
      = editInserts acc.2
        ++ ups.map (fun pe =>
            ({ id := (Entry.fromProto inc pe).id
               path := (Entry.fromProto inc pe).path
               isIgnored := (Entry.fromProto inc pe).isIgnored
               scanId := 0 } : PathEntry)) := by
  induction ups generalizing acc with
  | nil => simp
  | cons pe ups ih =>
    rw [List.foldl_cons, ih]
    cases h : smGet Entry.path (Entry.fromProto inc pe).path s.entriesByPath with
    | some old =>
      by_cases hne : old.id ≠ (Entry.fromProto inc pe).id
      · simp [entryEditsUpdStep, h, hne, editInserts_append, editInserts]
      · simp [entryEditsUpdStep, h, hne, editInserts_append, editInserts]
    | none => simp [entryEditsUpdStep, h, editInserts_append, editInserts]

theorem updFold_rems_snd (s : Snapshot) (inc : EntryPath → Bool)
    (ups : List ProtoEntry)
    (acc : List (MapEdit Entry EntryPath) × List (MapEdit PathEntry Nat)) :
    editRemovedKeys (ups.foldl (entryEditsUpdStep s inc) acc).2
      = editRemovedKeys acc.2
        ++ ups.filterMap (fun pe =>
            match smGet Entry.path (Entry.fromProto inc pe).path s.entriesByPath with
            | some old =>
              if old.id ≠ (Entry.fromProto inc pe).id then some old.id else none
            | none => none) := by
  induction ups generalizing acc with
  | nil => simp
  | cons pe ups ih =>
    rw [List.foldl_cons, ih]
    cases h : smGet Entry.path (Entry.fromProto inc pe).path s.entriesByPath with
    | some old =>
      by_cases hne : old.id ≠ (Entry.fromProto inc pe).id
      · simp [entryEditsUpdStep, h, hne, editRemovedKeys_append, editRemovedKeys,
          List.filterMap_cons]
      · simp [entryEditsUpdStep, h, hne, editRemovedKeys_append, editRemovedKeys,
          List.filterMap_cons]
    | none =>
      simp [entryEditsUpdStep, h, editRemovedKeys_append, editRemovedKeys,
        List.filterMap_cons]

/-- Closed form of the inserted entries of the path-tree edit batch. -/
theorem edits_inserts_fst (s : Snapshot) (u : ProtoUpdateWorktree)
    (inc : EntryPath → Bool) :
    editInserts (applyRemoteUpdateEntryEdits s u inc).1
      = u.updatedEntries.map (Entry.fromProto inc) := by
  unfold applyRemoteUpdateEntryEdits
  rw [updFold_editInserts_fst, remFold_editInserts_fst]
  simp [editInserts]

/-- Closed form of the removed keys of the path-tree edit batch. -/
theorem edits_rems_fst (s : Snapshot) (u : ProtoUpdateWorktree)
    (inc : EntryPath → Bool) :
    editRemovedKeys (applyRemoteUpdateEntryEdits s u inc).1
      = u.removedEntries.filterMap (fun rid => (s.entryForId rid).map Entry.path)
        ++ u.updatedEntries.filterMap (fun pe =>
             (smGet PathEntry.id (Entry.fromProto inc pe).id s.entriesById).map
               PathEntry.path) := by
  unfold applyRemoteUpdateEntryEdits
  rw [updFold_rems_fst, remFold_rems_fst]
  simp [editRemovedKeys]

/-- Closed form of the inserted rows of the identity-index edit batch. -/
theorem edits_inserts_snd (s : Snapshot) (u : ProtoUpdateWorktree)
    (inc : EntryPath → Bool) :
    editInserts (applyRemoteUpdateEntryEdits s u inc).2
      = u.updatedEntries.map (fun pe =>
          ({ id := (Entry.fromProto inc pe).id
             path := (Entry.fromProto inc pe).path
             isIgnored := (Entry.fromProto inc pe).isIgnored
             scanId := 0 } : PathEntry)) := by
  unfold applyRemoteUpdateEntryEdits
  rw [updFold_editInserts_snd, remFold_editInserts_snd]
  simp [editInserts]

/-- Closed form of the removed keys of the identity-index edit batch. -/
theorem edits_rems_snd (s : Snapshot) (u : ProtoUpdateWorktree)
    (inc : EntryPath → Bool) :
    editRemovedKeys (applyRemoteUpdateEntryEdits s u inc).2
      = u.removedEntries
        ++ u.updatedEntries.filterMap (fun pe =>
            match smGet Entry.path (Entry.fromProto inc pe).path s.entriesByPath with
            | some old =>
              if old.id ≠ (Entry.fromProto inc pe).id then some old.id else none
            | none => none) := by
  unfold applyRemoteUpdateEntryEdits
  rw [updFold_rems_snd, remFold_rems_snd]
  simp [editRemovedKeys]

/-- The entry-edit batches depend on the snapshot only through its two entry
indices. -/
theorem entryEdits_congr (t₁ t₂ : Snapshot) (u : ProtoUpdateWorktree)
    (inc : EntryPath → Bool)
    (hbp : t₁.entriesByPath = t₂.entriesByPath)
    (hbi : t₁.entriesById = t₂.entriesById) :
    applyRemoteUpdateEntryEdits t₁ u inc = applyRemoteUpdateEntryEdits t₂ u inc := by
  have hfid : ∀ i, t₁.entryForId i = t₂.entryForId i := by
    intro i
    unfold Snapshot.entryForId Snapshot.entryForPath
    rw [hbp, hbi]
  have hstep1 : entryEditsRemStep t₁ = entryEditsRemStep t₂ := by
    funext acc rid
    unfold entryEditsRemStep
    rw [hfid]
  have hstep2 : entryEditsUpdStep t₁ inc = entryEditsUpdStep t₂ inc := by
    funext acc pe
    unfold entryEditsUpdStep
    rw [hbp, hbi]
  unfold applyRemoteUpdateEntryEdits
  rw [hstep1, hstep2]

/-- `Snapshot::apply_remote_update` updates each entry index by its edit
batch; the repository loop and the scan-id stamping leave both indices
alone. -/
theorem applyRemoteUpdate_entries (s : Snapshot) (u : ProtoUpdateWorktree)
    (inc : EntryPath → Bool) :
    (s.applyRemoteUpdate u inc).entriesByPath
        = smEdit Entry.path s.entriesByPath (applyRemoteUpdateEntryEdits s u inc).1 ∧
    (s.applyRemoteUpdate u inc).entriesById
        = smEdit PathEntry.id s.entriesById (applyRemoteUpdateEntryEdits s u inc).2 := by
  have hcongr : applyRemoteUpdateEntryEdits
      { s with absPath := u.absPath, rootName := u.rootName } u inc
        = applyRemoteUpdateEntryEdits s u inc :=
    entryEdits_congr _ _ u inc rfl rfl
  cases hEd : applyRemoteUpdateEntryEdits s u inc with
  | mk pEd iEd =>
    have hEd2 : applyRemoteUpdateEntryEdits
        { s with absPath := u.absPath, rootName := u.rootName } u inc = (pEd, iEd) :=
      hcongr.trans hEd
    have hfields := applyRemoteRepositoryUpdates_fields
      { s with
        absPath := u.absPath
        rootName := u.rootName
        entriesByPath := smEdit Entry.path s.entriesByPath pEd
        entriesById := smEdit PathEntry.id s.entriesById iEd } u
    constructor
    · simp only [Snapshot.applyRemoteUpdate, Snapshot.updateAbsPath, hEd2]
      exact hfields.2.2.1
    · simp only [Snapshot.applyRemoteUpdate, Snapshot.updateAbsPath, hEd2]
      exact hfields.2.2.2

/-- `Snapshot::apply_remote_update` preserves well-formedness when the
update's updated entries carry pairwise-distinct ids and paths. -/
theorem applyRemoteUpdate_wf {s : Snapshot} (hwf : s.wf) (u : ProtoUpdateWorktree)
    (inc : EntryPath → Bool) (hnd : u.entriesNodup) :
    (s.applyRemoteUpdate u inc).wf := by
  obtain ⟨hp, hi, hag⟩ := hwf
  have hla := (agree_iff_lookupAgree hp hi).mp hag
  obtain ⟨hEbp, hEbi⟩ := applyRemoteUpdate_entries s u inc
  have hinjID : ∀ a ∈ u.updatedEntries, ∀ b ∈ u.updatedEntries,
      ProtoEntry.id a = ProtoEntry.id b → a = b :=
    fun a ha b hb hab => List.inj_on_of_nodup_map hnd.1 ha hb hab
  have hinjPATH : ∀ a ∈ u.updatedEntries, ∀ b ∈ u.updatedEntries,
      ProtoEntry.path a = ProtoEntry.path b → a = b :=
    fun a ha b hb hab => List.inj_on_of_nodup_map hnd.2 ha hb hab
  have hwfP : smWF Entry.path (s.applyRemoteUpdate u inc).entriesByPath := by
    rw [hEbp]
    exact smWF_smEdit _ hp
  have hwfI : smWF PathEntry.id (s.applyRemoteUpdate u inc).entriesById := by
    rw [hEbi]
    exact smWF_smEdit _ hi
  refine ⟨hwfP, hwfI, (agree_iff_lookupAgree hwfP hwfI).mpr ?_⟩
  intro p i
  rw [hEbp, hEbi]
  have H1 := smEdit_lookup_cases Entry.path p s.entriesByPath
    (applyRemoteUpdateEntryEdits s u inc).1
  have H2 := smEdit_lookup_cases PathEntry.id i s.entriesById
    (applyRemoteUpdateEntryEdits s u inc).2
  rw [edits_inserts_fst, edits_rems_fst] at H1
  rw [edits_inserts_snd, edits_rems_snd] at H2
  rcases H1 with ⟨x, hxE, hxk, hxeq⟩ | ⟨hnoP, hpRP, hxeq⟩ | ⟨hnoP, hpNRP, hxeq⟩ <;>
    rcases H2 with ⟨z, hzG, hzk, hzeq⟩ | ⟨hnoI, hiRI, hzeq⟩ | ⟨hnoI, hiNRI, hzeq⟩
  · -- insert hit on both sides
    rw [hxeq, hzeq]
    obtain ⟨pe₀, hpe₀, hx0⟩ := List.mem_map.mp hxE
    obtain ⟨pe₂, hpe₂, hz0⟩ := List.mem_map.mp hzG
    have hfxPath : ProtoEntry.path pe₀ = p := by
      have hc : ProtoEntry.path pe₀ = Entry.path x := congrArg Entry.path hx0
      rw [hc]
      exact hxk
    have hfzId : ProtoEntry.id pe₂ = i := by
      have hc : ProtoEntry.id pe₂ = PathEntry.id z := congrArg PathEntry.id hz0
      rw [hc]
      exact hzk
    constructor
    · rintro ⟨e2, he2, hei⟩
      have hxe2 : x = e2 := Option.some.inj he2
      have hxid : Entry.id x = i := by
        rw [hxe2]
        exact hei
      have hid0 : ProtoEntry.id pe₀ = i := by
        have hc : ProtoEntry.id pe₀ = Entry.id x := congrArg Entry.id hx0
        rw [hc]
        exact hxid
      have h02 : pe₀ = pe₂ := hinjID pe₀ hpe₀ pe₂ hpe₂ (by rw [hid0, hfzId])
      refine ⟨z, rfl, ?_⟩
      have hzpath : ProtoEntry.path pe₂ = PathEntry.path z := congrArg PathEntry.path hz0
      rw [← hzpath, ← h02]
      exact hfxPath
    · rintro ⟨q, hq, hqp⟩
      have hzq : z = q := Option.some.inj hq
      have hzpathp : PathEntry.path z = p := by
        rw [hzq]
        exact hqp
      have hpath2 : ProtoEntry.path pe₂ = p := by
        have hc : ProtoEntry.path pe₂ = PathEntry.path z := congrArg PathEntry.path hz0
        rw [hc]
        exact hzpathp
      have h02 : pe₀ = pe₂ := hinjPATH pe₀ hpe₀ pe₂ hpe₂ (by rw [hfxPath, hpath2])
      refine ⟨x, rfl, ?_⟩
      have hxid : ProtoEntry.id pe₀ = Entry.id x := congrArg Entry.id hx0
      rw [← hxid, h02]
      exact hfzId
  · -- path insert hit, id removed
    rw [hxeq, hzeq]
    obtain ⟨pe₀, hpe₀, hx0⟩ := List.mem_map.mp hxE
    constructor
    · rintro ⟨e2, he2, hei⟩
      exfalso
      have hxe2 : x = e2 := Option.some.inj he2
      have hxid : Entry.id x = i := by
        rw [hxe2]
        exact hei
      apply hnoI _ (List.mem_map_of_mem _ hpe₀)
      show ProtoEntry.id pe₀ = i
      have hc : ProtoEntry.id pe₀ = Entry.id x := congrArg Entry.id hx0
      rw [hc]
      exact hxid
    · rintro ⟨q, hq, -⟩
      exact Option.noConfusion hq
  · -- path insert hit, id passthrough
    rw [hxeq, hzeq]
    obtain ⟨pe₀, hpe₀, hx0⟩ := List.mem_map.mp hxE
    constructor
    · rintro ⟨e2, he2, hei⟩
      exfalso
      have hxe2 : x = e2 := Option.some.inj he2
      have hxid : Entry.id x = i := by
        rw [hxe2]
        exact hei
      apply hnoI _ (List.mem_map_of_mem _ hpe₀)
      show ProtoEntry.id pe₀ = i
      have hc : ProtoEntry.id pe₀ = Entry.id x := congrArg Entry.id hx0
      rw [hc]
      exact hxid
    · rintro ⟨q, hq, hqp⟩
      exfalso
      obtain ⟨e2, hge2, hid2⟩ := (hla p i).mpr ⟨q, hq, hqp⟩
      apply hiNRI
      refine List.mem_append.mpr (Or.inr ?_)
      refine List.mem_filterMap.mpr ⟨pe₀, hpe₀, ?_⟩
      have hfp : (Entry.fromProto inc pe₀).path = p := by
        have hc : (Entry.fromProto inc pe₀).path = Entry.path x := congrArg Entry.path hx0
        rw [hc]
        exact hxk
      rw [hfp, hge2]
      show (if e2.id ≠ (Entry.fromProto inc pe₀).id then some e2.id else none) = some i
      have hne2 : e2.id ≠ (Entry.fromProto inc pe₀).id := by
        rw [hid2]
        intro hc
        apply hnoI _ (List.mem_map_of_mem _ hpe₀)
        show ProtoEntry.id pe₀ = i
        exact hc.symm
      rw [if_pos hne2, hid2]
  · -- path removed, id insert hit
    rw [hxeq, hzeq]
    obtain ⟨pe₂, hpe₂, hz0⟩ := List.mem_map.mp hzG
    constructor
    · rintro ⟨e2, he2, -⟩
      exact Option.noConfusion he2
    · rintro ⟨q, hq, hqp⟩
      exfalso
      have hzq : z = q := Option.some.inj hq
      apply hnoP _ (List.mem_map_of_mem _ hpe₂)
      show (Entry.fromProto inc pe₂).path = p
      have h1 : (Entry.fromProto inc pe₂).path = PathEntry.path z :=
        congrArg PathEntry.path hz0
      rw [h1, hzq]
      exact hqp
  · -- both removed
    rw [hxeq, hzeq]
    constructor
    · rintro ⟨e2, he2, -⟩
      exact Option.noConfusion he2
    · rintro ⟨q, hq, -⟩
      exact Option.noConfusion hq
  · -- path removed, id passthrough
    rw [hxeq, hzeq]
    constructor
    · rintro ⟨e2, he2, -⟩
      exact Option.noConfusion he2
    · rintro ⟨q, hq, hqp⟩
      exfalso
      obtain ⟨e2, hge2, hid2⟩ := (hla p i).mpr ⟨q, hq, hqp⟩
      rcases List.mem_append.mp hpRP with hrp1 | hrp2
      · obtain ⟨rid, hridMem, hmap⟩ := List.mem_filterMap.mp hrp1
        cases hfid : s.entryForId rid with
        | none =>
          rw [hfid] at hmap
          exact Option.noConfusion hmap
        | some ent =>
          rw [hfid] at hmap
          have hentp : Entry.path ent = p := by
            have h2 : some (Entry.path ent) = some p := hmap
            exact Option.some.inj h2
          have hq1ex : ∃ q1, smGet PathEntry.id rid s.entriesById = some q1 ∧
              smGet Entry.path q1.path s.entriesByPath = some ent := by
            unfold Snapshot.entryForId Snapshot.entryForPath at hfid
            cases hq1 : smGet PathEntry.id rid s.entriesById with
            | none =>
              rw [hq1] at hfid
              exact Option.noConfusion hfid
            | some q1 =>
              rw [hq1] at hfid
              exact ⟨q1, rfl, hfid⟩
          obtain ⟨q1, hq1, hent⟩ := hq1ex
          have hq1p : q1.path = p := by
            have hk := (smGet_eq_some hent).2
            rw [← hk]
            exact hentp
          obtain ⟨e3, hge3, hid3⟩ := (hla p rid).mpr ⟨q1, hq1, hq1p⟩
          have he23 : e2 = e3 := by
            rw [hge2] at hge3
            exact Option.some.inj hge3
          have hir : i = rid := by rw [← hid2, he23, hid3]
          apply hiNRI
          refine List.mem_append.mpr (Or.inl ?_)
          rw [hir]
          exact hridMem
      · obtain ⟨pe₃, hpe₃, hmap⟩ := List.mem_filterMap.mp hrp2
        cases hq3 : smGet PathEntry.id (Entry.fromProto inc pe₃).id s.entriesById with
        | none =>
          rw [hq3] at hmap
          exact Option.noConfusion hmap
        | some q3 =>
          rw [hq3] at hmap
          have hq3p : PathEntry.path q3 = p := by
            have h2 : some (PathEntry.path q3) = some p := hmap
            exact Option.some.inj h2
          obtain ⟨e3, hge3, hid3⟩ :=
            (hla p (Entry.fromProto inc pe₃).id).mpr ⟨q3, hq3, hq3p⟩
          have he23 : e2 = e3 := by
            rw [hge2] at hge3
            exact Option.some.inj hge3
          apply hnoI _ (List.mem_map_of_mem _ hpe₃)
          show (Entry.fromProto inc pe₃).id = i
          rw [← hid3, ← he23]
          exact hid2
  · -- path passthrough, id insert hit
    rw [hxeq, hzeq]
    obtain ⟨pe₂, hpe₂, hz0⟩ := List.mem_map.mp hzG
    constructor
    · rintro ⟨e2, hge2, hid2⟩
      exfalso
      obtain ⟨q2, hq2, hq2p⟩ := (hla p i).mp ⟨e2, hge2, hid2⟩
      apply hpNRP
      refine List.mem_append.mpr (Or.inr ?_)
      refine List.mem_filterMap.mpr ⟨pe₂, hpe₂, ?_⟩
      have hfzId : (Entry.fromProto inc pe₂).id = i := by
        have hc : (Entry.fromProto inc pe₂).id = PathEntry.id z :=
          congrArg PathEntry.id hz0
        rw [hc]
        exact hzk
      rw [hfzId, hq2]
      show some (PathEntry.path q2) = some p
      rw [hq2p]
    · rintro ⟨q, hq, hqp⟩
      exfalso
      have hzq : z = q := Option.some.inj hq
      apply hnoP _ (List.mem_map_of_mem _ hpe₂)
      show (Entry.fromProto inc pe₂).path = p
      have h1 : (Entry.fromProto inc pe₂).path = PathEntry.path z :=
        congrArg PathEntry.path hz0
      rw [h1, hzq]
      exact hqp
  · -- path passthrough, id removed
    rw [hxeq, hzeq]
    constructor
    · rintro ⟨e2, hge2, hid2⟩
      exfalso
      obtain ⟨q2, hq2, hq2p⟩ := (hla p i).mp ⟨e2, hge2, hid2⟩
      rcases List.mem_append.mp hiRI with hri1 | hri2
      · apply hpNRP
        refine List.mem_append.mpr (Or.inl ?_)
        refine List.mem_filterMap.mpr ⟨i, hri1, ?_⟩
        have hfid : s.entryForId i = some e2 := by
          unfold Snapshot.entryForId Snapshot.entryForPath
          rw [hq2]
          show smGet Entry.path q2.path s.entriesByPath = some e2
          rw [hq2p]
          exact hge2
        rw [hfid]
        have he2p := (smGet_eq_some hge2).2
        show some (Entry.path e2) = some p
        rw [he2p]
      · obtain ⟨pe₄, hpe₄, hφ⟩ := List.mem_filterMap.mp hri2
        cases hold : smGet Entry.path (Entry.fromProto inc pe₄).path s.entriesByPath with
        | none =>
          rw [hold] at hφ
          exact Option.noConfusion hφ
        | some old =>
          rw [hold] at hφ
          have hφ2 : (if old.id ≠ (Entry.fromProto inc pe₄).id then some old.id
              else none) = some i := hφ
          by_cases hne : old.id ≠ (Entry.fromProto inc pe₄).id
          · rw [if_pos hne] at hφ2
            have holdid : old.id = i := Option.some.inj hφ2
            obtain ⟨qo, hqo, hqop⟩ :=
              (hla (Entry.fromProto inc pe₄).path i).mp ⟨old, hold, holdid⟩
            have hqoq2 : qo = q2 := by
              rw [hqo] at hq2
              exact Option.some.inj hq2
            apply hnoP _ (List.mem_map_of_mem _ hpe₄)
            show (Entry.fromProto inc pe₄).path = p
            rw [← hqop, hqoq2]
            exact hq2p
          · rw [if_neg hne] at hφ2
            exact Option.noConfusion hφ2
    · rintro ⟨q, hq, -⟩
      exact Option.noConfusion hq
  · -- both passthrough
    rw [hxeq, hzeq]
    exact hla p i

/-- Every snapshot reachable by the public mutation operations under the
stated conflict preconditions is well-formed. -/
theorem Reach_wf {s : Snapshot} (h : Reach s) : s.wf := by
  induction h with
  | new rootName absPath => exact Snapshot.new_wf rootName absPath
  | insert protoEntry inc _ hok ih => exact insertEntry_wf ih protoEntry inc hok
  | localInsert entry _ hok ih => exact localInsertEntry_wf ih entry hok
  | delete entryId _ ih => exact deleteEntry_wf ih entryId
  | applyUpdate u inc _ hnd ih => exact applyRemoteUpdate_wf ih u inc hnd

/-- C1 counterexample: from a fresh snapshot, `Snapshot::insert_entry` at path
`a` with id 1 and then again at path `a` with id 2 leaves the identity row of
id 1 behind while the path tree only records id 2 — the two indices disagree
on the pair `(a, 1)`, refuting the claim read over all sequences of the
public mutation operations. -/
theorem c1_counterexample : ¬ agreeEntries c1Snap := by
  intro h
  have h1 := (h ([pc "a"], 1)).mpr (by decide)
  have h2 : ([pc "a"], 1) ∉ entryPairs c1Snap := by decide
  exact h2 h1

/-- C1: the path tree and the identity index record the same set of
`(path, id)` pairs on every snapshot reachable by the public mutation
operations, provided each `Snapshot::insert_entry` targets a path that is not
occupied by a different id, each `LocalSnapshot::insert_entry` carries an id
not recorded under a different path, and each remote update's updated entries
carry pairwise-distinct ids and paths. -/
theorem c1_entries_agree {s : Snapshot} (h : Reach s) : agreeEntries s :=
  (Reach_wf h).2.2

/-- Witness for C1: the invariant holds after inserting entry 1 at path `a`
into a fresh snapshot. -/
theorem c1_entries_agree_witness :
    agreeEntries ((Snapshot.new "root" []).insertEntry
      { sampleProtoEntry with id := 1, path := [pc "a"] } incNone).1 :=
  c1_entries_agree (Reach.insert _ incNone (Reach.new "root" [])
    (fun _ hold => Option.noConfusion hold))

end Worktree
